import Mathlib

/-!
Verification of the co-occurrence / similarity graph construction engine of
the `traverse` repository.

Embedded source files:
* `src/traverse/graph/cooccurrence.py` — `CooccurrenceBuilder` (streaming
  tag co-occurrence accumulator plus threshold/cap finalizer).
* `src/traverse/graph/album_graph.py` — the inverted-index entity pair
  generator (`_pairs_from_sorted`, `_consolidate`, the batched consolidation
  loop of `build_album_graph`, and its pass-3 threshold/clip/cap stage).

Modelling conventions:
* Python `dict` / `Counter` state is modelled by insertion-ordered
  association lists (`List (key × value)`) with first-match lookup, which is
  observationally identical to Python dicts (insertion-ordered, unique keys).
* Python's stable `list.sort` / `sorted` is modelled by
  `List.insertionSort`, which is a stable sort; `sorted(..., reverse=True)`
  with key `k` is the stable sort with relation `fun x y => k y ≤ k x`.
  (`np.argsort`, used on packed keys right before run-summing and on the
  final weight sort, is not stable; any sorted permutation yields the same
  summed groups, and no claim depends on the final tie order of
  `build_album_graph`, so `insertionSort` is used there as well.)
* numpy `int32`/`int64` arithmetic is modelled on `Nat`: record ids are
  `int32` (< 2^31) in the source, so the packing `row * 2_200_000_000 + col`
  never overflows `int64`, and `Nat` arithmetic agrees with it.
* Timestamps (`timestamp_ms`) are modelled as `Int`.
* Display-only bookkeeping of the source is omitted: `_node_labels` /
  `label_fn` (labels), the `stats` row counters, the `skipped_tags` /
  `sampled_tags` counters and all `print` diagnostics affect no emitted
  node id, edge or weight.
* `build_album_graph`'s pass 1 (pandas CSV streaming, column detection,
  `require_tags` filtering, pre-index node capping) is outside the embedded
  core: the embedding starts from its outputs, the inverted-index posting
  lists `tag_to_ints` (`postings : List (List Nat)`) and the sorted id table
  `int_to_str` (`intToStr : List String`).  Pass 1 keeps `node_meta` and
  `node_edge_tags` key-synchronized, so the `meta is None` guard of pass 3
  never fires; the model therefore emits a point for every surviving id.
* `random.sample` (used for high-degree tag sampling) is modelled by an
  abstract `sampler : List Nat → Nat → List Nat` parameter; theorems that
  need it assume only the properties `random.sample` guarantees (the result
  has the requested length, is drawn from the population, and has no
  duplicates).
-/

/-- Decidability of `String` `<` routed through the list-of-characters
order, so that concrete runs of the embedding reduce inside the kernel
(the default `String` instances are compiled externally and do not).
Python compares strings by code points, which is exactly this order. -/
instance (priority := high) strLtD : DecidableRel (fun a b : String => a < b) :=
  fun a b => decidable_of_iff (a.toList < b.toList) String.lt_iff_toList_lt.symm

/-- Kernel-reducible decidability of `String` `≤` (see `strLtD`). -/
instance (priority := high) strLeD : DecidableRel (fun a b : String => a ≤ b) :=
  fun a b => decidable_of_iff (a.toList ≤ b.toList) String.le_iff_toList_le.symm

/-- All upper-triangle pairs of a list, in row-major order: this is the
order of `itertools.combinations(l, 2)` and of `np.triu_indices(n, k=1)`
(`_pairs_from_sorted` in `album_graph.py`). -/
def upPairs {α : Type} : List α → List (α × α)
  | [] => []
  | x :: xs => xs.map (fun y => (x, y)) ++ upPairs xs

/-- First-match lookup in an insertion-ordered association list
(Python `dict.get`). -/
def alookup {α β : Type} [DecidableEq α] : List (α × β) → α → Option β
  | [], _ => none
  | (k, v) :: rest, a => if a = k then some v else alookup rest a

/-- Lookup with default 0 (Python `Counter[k]` / `defaultdict(int)[k]`). -/
def lookupNat {α : Type} [DecidableEq α] (m : List (α × Nat)) (a : α) : Nat :=
  (alookup m a).getD 0

/-- `Counter[key] += 1`: increment in place if present, else append with
count 1 (Python dicts append new keys at the end). -/
def bump {α : Type} [DecidableEq α] : List (α × Nat) → α → List (α × Nat)
  | [], k => [(k, 1)]
  | (k0, v) :: rest, k => if k = k0 then (k0, v + 1) :: rest else (k0, v) :: bump rest k

/-- `defaultdict(int)[key] += w`. -/
def addTo {α : Type} [DecidableEq α] : List (α × Nat) → α → Nat → List (α × Nat)
  | [], k, w => [(k, w)]
  | (k0, v) :: rest, k, w => if k = k0 then (k0, v + w) :: rest else (k0, v) :: addTo rest k w

/-- The first-seen update of `CooccurrenceBuilder.add`: set `m[k]` to `ts`
if `k` is unseen or `ts` is strictly earlier than the stored value. -/
def fsMin {α : Type} [DecidableEq α] : List (α × Int) → α → Int → List (α × Int)
  | [], k, ts => [(k, ts)]
  | (k0, v) :: rest, k, ts =>
    if k = k0 then (if ts < v then (k0, ts) :: rest else (k0, v) :: rest)
    else (k0, v) :: fsMin rest k ts

/-- Fold one optional timestamp into an optional running minimum. -/
def ofold : Option Int → Option Int → Option Int
  | acc, none => acc
  | none, some v => some v
  | some u, some v => some (min u v)

/-- Minimum over a stream of optional timestamps (`none` entries are
observations that carried no timestamp); `none` iff no timestamp occurred. -/
def obsMin (l : List (Option Int)) : Option Int :=
  l.foldl ofold none

/-- Minimum of an optional running value and a new value. -/
def omin : Option Int → Int → Int
  | none, v => v
  | some u, v => min u v

/-- All edge endpoints of an edge list `(source, target, weight)`, the
node set collected in step 5 of `CooccurrenceBuilder.build`. -/
def endpointList : List (String × String × Nat) → List String
  | [] => []
  | e :: rest => e.1 :: e.2.1 :: endpointList rest

/-! ## CooccurrenceBuilder (`src/traverse/graph/cooccurrence.py`) -/

/-- One `add()` observation: a tag list plus an optional epoch-ms
timestamp. -/
structure Obs where
  tags : List String
  timestamp_ms : Option Int
deriving DecidableEq, Repr

/-- The `CooccurrenceBuilder` dataclass: configuration plus the internal
accumulators `_counts`, `_node_first_seen`, `_edge_first_seen`
(insertion-ordered maps).  Label bookkeeping and row counters are
display-only and omitted. -/
structure CooccurrenceBuilder where
  min_cooccurrence : Nat := 2
  max_nodes : Nat := 0
  max_edges : Nat := 0
  counts : List ((String × String) × Nat) := []
  node_first_seen : List (String × Int) := []
  edge_first_seen : List ((String × String) × Int) := []
deriving DecidableEq, Repr

/-- A fresh builder with the given configuration (all accumulators empty,
as after `reset()`). -/
def mkBuilder (mc mn me : Nat) : CooccurrenceBuilder :=
  { min_cooccurrence := mc, max_nodes := mn, max_edges := me }

/-- `CooccurrenceBuilder._ordered_pair`. -/
def orderedPair (a b : String) : String × String :=
  if a ≤ b then (a, b) else (b, a)

/-- `sorted(set(t for t in tags if t))` inside `_cooccurrence_pairs`:
drop empty (falsy) tags, deduplicate, sort ascending. -/
def sortedUniq (tags : List String) : List String :=
  List.insertionSort (· ≤ ·) ((tags.filter (fun t => t ≠ "")).dedup)

/-- `CooccurrenceBuilder._cooccurrence_pairs`: sort the set of non-empty
tags, return all combinations of two (`combinations(uniq, 2)`; fewer than
two unique tags give no pairs, which `upPairs` already does). -/
def cooccurrencePairs (tags : List String) : List (String × String) :=
  upPairs (sortedUniq tags)

/-- `CooccurrenceBuilder.add`: a no-op on an empty tag list; otherwise
update the per-node first-seen map for every unique tag and, for every
co-occurring pair, increment `_counts` and update `_edge_first_seen`. -/
def CooccurrenceBuilder.add (b : CooccurrenceBuilder) (tags : List String)
    (ts : Option Int) : CooccurrenceBuilder :=
  if tags = [] then b
  else
    let uniq := tags.dedup
    let nfs := match ts with
      | some v => uniq.foldl (fun m t => fsMin m t v) b.node_first_seen
      | none => b.node_first_seen
    let prs := cooccurrencePairs uniq
    let ce := prs.foldl
      (fun (st : List ((String × String) × Nat) × List ((String × String) × Int)) p =>
        let key := orderedPair p.1 p.2
        (bump st.1 key,
         match ts with
         | some v => fsMin st.2 key v
         | none => st.2))
      (b.counts, b.edge_first_seen)
    { b with counts := ce.1, node_first_seen := nfs, edge_first_seen := ce.2 }

/-- Feed a whole observation stream through `add`. -/
def applyAdds (b : CooccurrenceBuilder) (obs : List Obs) : CooccurrenceBuilder :=
  obs.foldl (fun b o => b.add o.tags o.timestamp_ms) b

/-- An emitted node (`points` entry): `{"id": ..., "first_seen"?: ...}`.
The display label is omitted (see the module comment). -/
structure Point where
  id : String
  first_seen : Option Int
deriving DecidableEq, Repr

/-- An emitted edge (`links` entry):
`{"source": ..., "target": ..., "weight": ..., "first_seen"?: ...}`. -/
structure Link where
  source : String
  target : String
  weight : Nat
  first_seen : Option Int
deriving DecidableEq, Repr

/-- The `{points, links}` result of a build. -/
structure CooccurrenceGraph where
  points : List Point
  links : List Link
deriving DecidableEq, Repr

/-- Step 1 of `build`: keep the pairs whose count reaches
`min_cooccurrence`, in `_counts` insertion order. -/
def thresholdEdges (b : CooccurrenceBuilder) : List (String × String × Nat) :=
  (b.counts.filter (fun e => b.min_cooccurrence ≤ e.2)).map (fun e => (e.1.1, e.1.2, e.2))

/-- `edges.sort(key=lambda x: x[2], reverse=True)`: stable sort by weight
descending. -/
def sortEdgesByWeight (es : List (String × String × Nat)) : List (String × String × Nat) :=
  List.insertionSort (fun x y => y.2.2 ≤ x.2.2) es

/-- Step 2 of `build`: the strength (weighted degree) table, an
insertion-ordered `defaultdict(int)` filled edge by edge, source endpoint
first. -/
def strengthTable (es : List (String × String × Nat)) : List (String × Nat) :=
  es.foldl (fun m e => addTo (addTo m e.1 e.2.2) e.2.1 e.2.2) []

/-- Step 3 of `build`: the kept node ids,
`sorted(strength.items(), key=lambda kv: kv[1], reverse=True)[:max_nodes]`
(stable sort by strength descending, then truncate). -/
def nodeCapKeep (maxNodes : Nat) (es : List (String × String × Nat)) : List String :=
  ((List.insertionSort (fun (x y : String × Nat) => y.2 ≤ x.2) (strengthTable es)).take
    maxNodes).map (fun kv => kv.1)

/-- Steps 1–2 of `build`: thresholded edges, stably sorted by weight
descending. -/
def sortedEdges (b : CooccurrenceBuilder) : List (String × String × Nat) :=
  sortEdgesByWeight (thresholdEdges b)

/-- Step 3 of `build`: when `max_nodes > 0`, drop every edge with an
endpoint outside the kept node set. -/
def nodeFilteredEdges (b : CooccurrenceBuilder) : List (String × String × Nat) :=
  if 0 < b.max_nodes then
    (let keep := nodeCapKeep b.max_nodes (sortedEdges b)
     (sortedEdges b).filter (fun e => decide (e.1 ∈ keep) && decide (e.2.1 ∈ keep)))
  else sortedEdges b

/-- Step 4 of `build`: when `max_edges > 0` and the edge list is longer,
truncate it. -/
def cappedEdges (b : CooccurrenceBuilder) : List (String × String × Nat) :=
  if 0 < b.max_edges ∧ b.max_edges < (nodeFilteredEdges b).length then
    (nodeFilteredEdges b).take b.max_edges
  else nodeFilteredEdges b

/-- `CooccurrenceBuilder.build`: threshold, weight-sort, node cap, edge
cap, then assemble `{points, links}` (steps 5–7). -/
def CooccurrenceBuilder.build (b : CooccurrenceBuilder) : CooccurrenceGraph :=
  let edges := cappedEdges b
  let nodeIds := (endpointList edges).dedup
  let points := (List.insertionSort (· ≤ ·) nodeIds).map (fun nid =>
    { id := nid, first_seen := alookup b.node_first_seen nid : Point })
  let links := edges.map (fun e =>
    { source := e.1, target := e.2.1, weight := e.2.2,
      first_seen := alookup b.edge_first_seen (orderedPair e.1 e.2.1) : Link })
  { points := points, links := links }

/-- An observation's timestamp as seen by a node: present iff the
observation's tag list mentions the node. -/
def nodeTouch (o : Obs) (t : String) : Option Int :=
  if t ∈ o.tags then o.timestamp_ms else none

/-- An observation's timestamp as seen by a pair: present iff the pair
co-occurs in the observation. -/
def edgeTouch (o : Obs) (p : String × String) : Option Int :=
  if p ∈ cooccurrencePairs o.tags then o.timestamp_ms else none

/-- How many observations of the stream make the pair `p` co-occur. -/
def pairHits (obs : List Obs) (p : String × String) : Nat :=
  obs.countP (fun o => decide (p ∈ cooccurrencePairs o.tags))

/-! ## Album similarity graph (`src/traverse/graph/album_graph.py`)

The embedding starts after pass 1: the inverted index is a list of
posting lists (`tag_to_ints.values()` in iteration order, each a list of
integer record ids), together with the sorted string table `int_to_str`. -/

/-- A pair-weight table: the `(acc_rows, acc_cols, acc_weights)` triple of
parallel numpy arrays, as a list of `((row, col), weight)` entries. -/
abbrev PairTable := List ((Nat × Nat) × Nat)

/-- The packing base `2_200_000_000` used by `_consolidate` and the merge
steps (`row * 2_200_000_000 + col`); larger than any `int32` id, so the
packing is injective on the ids that occur. -/
def packBase : Nat := 2200000000

/-- `row * 2_200_000_000 + col`. -/
def pack (r c : Nat) : Nat := r * packBase + c

/-- Unpack a `(packed_key, weight)` group back into `((row, col), weight)`
(`unique_packed // BASE`, `unique_packed % BASE`). -/
def unpackEntry (g : Nat × Nat) : (Nat × Nat) × Nat :=
  ((g.1 / packBase, g.1 % packBase), g.2)

/-- Merge one `(key, weight)` entry into a run-summed tail: absorb into
the first group when the keys agree. -/
def mergeRun (k w : Nat) : List (Nat × Nat) → List (Nat × Nat)
  | [] => [(k, w)]
  | (k2, w2) :: t => if k = k2 then (k2, w + w2) :: t else (k, w) :: (k2, w2) :: t

/-- Sum the weights of adjacent entries with equal keys: this is what
`np.unique(..., return_counts=True)` (with unit weights) and the
`np.add.at(summed_weights, group_idx, m_weights)` merge step compute on a
key-sorted array. -/
def sumRuns : List (Nat × Nat) → List (Nat × Nat)
  | [] => []
  | (k, w) :: rest => mergeRun k w (sumRuns rest)

/-- `_consolidate`: pack every `(row, col)` pair, sort, sum duplicate
pairs, optionally prune singletons (`prune and min_weight >= 2`), unpack.
An empty input yields the empty table, matching the early return. -/
def consolidate (pairs : List (Nat × Nat)) (minWeight : Nat) (prune : Bool) : PairTable :=
  let packed := List.insertionSort (· ≤ ·) (pairs.map (fun p => pack p.1 p.2))
  let groups := sumRuns (packed.map (fun k => (k, 1)))
  let groups := if prune && decide (2 ≤ minWeight) then
      groups.filter (fun g => 2 ≤ g.2)
    else groups
  groups.map unpackEntry

/-- The in-place merge of a consolidated batch into the running
accumulator (`build_album_graph`, pass 2): concatenate, sort by packed
key, sum duplicate keys, optionally prune summed singletons. -/
def mergeTables (acc bat : PairTable) (pruneMerge : Bool) : PairTable :=
  let entries := List.insertionSort (fun x y => x.1 ≤ y.1)
      ((acc ++ bat).map (fun e => (pack e.1.1 e.1.2, e.2)))
  let groups := sumRuns entries
  let groups := if pruneMerge then groups.filter (fun g => 2 ≤ g.2) else groups
  groups.map unpackEntry

/-- One consolidation round of the pass-2 loop: consolidate the batch
(pruning per `_consolidate`); a fresh accumulator just takes it, an empty
batch result leaves the accumulator unchanged, otherwise merge with the
post-sum prune `not unweighted and min_weight >= 2`. -/
def incStep (minWeight : Nat) (prune : Bool) (acc : PairTable)
    (batch : List (Nat × Nat)) : PairTable :=
  if acc = [] then consolidate batch minWeight prune
  else
    let b := consolidate batch minWeight prune
    if b = [] then acc
    else mergeTables acc b (prune && decide (2 ≤ minWeight))

/-- Consolidating a stream of pair observations batch by batch: each batch
is consolidated and merged into the running total, exactly as the pass-2
loop does at every `BATCH_CAP` overflow. -/
def incrementalConsolidate (batches : List (List (Nat × Nat))) (minWeight : Nat)
    (prune : Bool) : PairTable :=
  batches.foldl (incStep minWeight prune) []

/-- `_pairs_from_sorted`: all upper-triangle pairs of a sorted id array,
in `np.triu_indices` order. -/
def pairsFromSorted (arr : List Nat) : List (Nat × Nat) :=
  upPairs arr

/-- The mutable state of the pass-2 loop: the pending batch
(`batch_rows`/`batch_cols`, flattened in append order), its size, and the
accumulated table. -/
structure Pass2State where
  batch : List (Nat × Nat)
  batchSize : Nat
  acc : PairTable
deriving DecidableEq, Repr

/-- Append one tag's pairs to the batch; consolidate when the batch
reaches `BATCH_CAP` (`if batch_size >= BATCH_CAP`). -/
def pass2Emit (batchCap minWeight : Nat) (prune : Bool) (st : Pass2State)
    (recInts : List Nat) : Pass2State :=
  let prs := pairsFromSorted (List.insertionSort (· ≤ ·) recInts)
  if prs = [] then st
  else
    let batch := st.batch ++ prs
    let size := st.batchSize + prs.length
    if batchCap ≤ size then
      { batch := [], batchSize := 0, acc := incStep minWeight prune st.acc batch }
    else { st with batch := batch, batchSize := size }

/-- One iteration of the pass-2 loop over a tag's posting list: skip or
sample when the posting list exceeds `max_tag_degree`, then emit the
sorted pairs. -/
def pass2Step (batchCap minWeight maxTagDegree : Nat) (sample prune : Bool)
    (sampler : List Nat → Nat → List Nat) (st : Pass2State)
    (recInts : List Nat) : Pass2State :=
  if maxTagDegree < recInts.length then
    if sample then pass2Emit batchCap minWeight prune st (sampler recInts maxTagDegree)
    else st
  else pass2Emit batchCap minWeight prune st recInts

/-- The final consolidation after the loop: merge the remaining batch into
the accumulator (without the post-sum singleton prune), or consolidate it
alone if the accumulator is empty. -/
def pass2Finish (minWeight : Nat) (prune : Bool) (st : Pass2State) : PairTable :=
  if 0 < st.batchSize then
    if st.acc = [] then consolidate st.batch minWeight prune
    else
      let b := consolidate st.batch minWeight prune
      if b = [] then st.acc else mergeTables st.acc b false
  else st.acc

/-- Pass 2 of `build_album_graph`: derive the pair-weight table from the
inverted index, with per-tag degree control and batched consolidation. -/
def pass2 (batchCap minWeight maxTagDegree : Nat) (sample prune : Bool)
    (sampler : List Nat → Nat → List Nat) (postings : List (List Nat)) : PairTable :=
  pass2Finish minWeight prune
    (postings.foldl (pass2Step batchCap minWeight maxTagDegree sample prune sampler)
      ⟨[], 0, []⟩)

/-- The `BATCH_CAP` constant of the pass-2 loop. -/
def BATCH_CAP : Nat := 30000000

/-- Pass 3, step 1: `if min_weight > 1 and not unweighted`, keep only the
pairs whose weight reaches `min_weight`. -/
def pass3Filter (minWeight : Nat) (unweighted : Bool) (t : PairTable) : PairTable :=
  if 1 < minWeight && !unweighted then t.filter (fun e => minWeight ≤ e.2) else t

/-- Pass 3, step 2: `if max_edge_weight > 0 and not unweighted`,
`np.clip(acc_weights, 0, max_edge_weight)`. -/
def pass3Clip (maxEdgeWeight : Nat) (unweighted : Bool) (t : PairTable) : PairTable :=
  if 0 < maxEdgeWeight && !unweighted then
    t.map (fun e => (e.1, min e.2 maxEdgeWeight))
  else t

/-- Pass 3, step 3: in unweighted mode all weights become 1. -/
def pass3Unit (unweighted : Bool) (t : PairTable) : PairTable :=
  if unweighted then t.map (fun e => (e.1, 1)) else t

/-- Pass 3, step 4: sort by weight descending (`np.argsort(-acc_weights)`). -/
def pass3Sort (t : PairTable) : PairTable :=
  List.insertionSort (fun (x y : (Nat × Nat) × Nat) => y.2 ≤ x.2) t

/-- Pass 3 of `build_album_graph`: apply the `min_weight` filter, clip at
`max_edge_weight`, force unit weights in unweighted mode, sort by weight
descending, cap at `max_edges`. -/
def pass3 (minWeight maxEdges maxEdgeWeight : Nat) (unweighted : Bool)
    (t : PairTable) : PairTable :=
  let t := pass3Sort (pass3Unit unweighted
    (pass3Clip maxEdgeWeight unweighted (pass3Filter minWeight unweighted t)))
  if 0 < maxEdges && decide (maxEdges < t.length) then t.take maxEdges else t

/-- All row/col ids of a pair table (`node_int_ids` before dedup). -/
def endpointNats : PairTable → List Nat
  | [] => []
  | e :: rest => e.1.1 :: e.1.2 :: endpointNats rest

/-- An emitted album node; display metadata (label, artist, genres,
styles, release year, external links) is omitted. -/
structure APoint where
  id : String
deriving DecidableEq, Repr

/-- An emitted album link; in unweighted mode the source emits no weight
key, modelled by `weight = none`. -/
structure ALink where
  source : String
  target : String
  weight : Option Nat
deriving DecidableEq, Repr

/-- The `{points, links}` result of `build_album_graph`. -/
structure AlbumGraph where
  points : List APoint
  links : List ALink
deriving DecidableEq, Repr

/-- Points of the album graph: sorted unique endpoint ids mapped through
`int_to_str`. -/
def albumPoints (intToStr : List String) (t : PairTable) : List APoint :=
  (List.insertionSort (· ≤ ·) (endpointNats t).dedup).map
    (fun i => { id := intToStr.getD i "" })

/-- Links of the album graph: each surviving `(row, col, weight)` mapped
through `int_to_str`; unweighted links carry no weight. -/
def albumLinks (intToStr : List String) (unweighted : Bool) (t : PairTable) : List ALink :=
  t.map (fun e =>
    { source := intToStr.getD e.1.1 "", target := intToStr.getD e.1.2 "",
      weight := if unweighted then none else some e.2 })

/-- Passes 2–3 of `build_album_graph` plus output assembly, starting from
the inverted index.  `unweighted=True` forces `min_weight = 1` (and
disables pruning), as in the source. -/
def buildAlbumGraphCore (postings : List (List Nat)) (intToStr : List String)
    (minWeight maxEdges maxTagDegree : Nat) (sample unweighted : Bool)
    (maxEdgeWeight batchCap : Nat) (sampler : List Nat → Nat → List Nat) : AlbumGraph :=
  let mw := if unweighted then 1 else minWeight
  let t := pass3 mw maxEdges maxEdgeWeight unweighted
    (pass2 batchCap mw maxTagDegree sample (!unweighted) sampler postings)
  { points := albumPoints intToStr t, links := albumLinks intToStr unweighted t }

/-- The structural invariant of a pair table with ids below `N`: every
entry is a strictly ascending pair of in-range ids with positive weight. -/
def TableOK (N : Nat) (t : PairTable) : Prop :=
  ∀ e ∈ t, e.1.1 < e.1.2 ∧ e.1.2 < N ∧ 1 ≤ e.2

/-- The structural invariant of the pass-2 loop state. -/
def Pass2OK (N : Nat) (st : Pass2State) : Prop :=
  (∀ p ∈ st.batch, p.1 < p.2 ∧ p.2 < N) ∧ TableOK N st.acc

/-- Total weight held by a packed key in a `(key, weight)` list. -/
def keyWeight (k : Nat) (l : List (Nat × Nat)) : Nat :=
  ((l.filter (fun e => e.1 = k)).map (fun e => e.2)).sum

/-- Total weight held by a pair in a pair table. -/
def weightOf (t : PairTable) (r c : Nat) : Nat :=
  ((t.filter (fun e => e.1 = (r, c))).map (fun e => e.2)).sum

/-- Number of occurrences of `(r, c)` in a stream of pair observations. -/
def pairCount (pairs : List (Nat × Nat)) (r c : Nat) : Nat :=
  pairs.countP (fun p => decide (p = (r, c)))

/-! ## Lemmas: association-list primitives -/

theorem ofold_none (a : Option Int) : ofold a none = a := by cases a <;> rfl

theorem ofold_some (a : Option Int) (v : Int) : ofold a (some v) = some (omin a v) := by
  cases a <;> rfl

theorem lookupNat_bump {α : Type} [DecidableEq α] (m : List (α × Nat)) (k a : α) :
    lookupNat (bump m k) a = lookupNat m a + if a = k then 1 else 0 := by
  induction m with
  | nil =>
    by_cases h : a = k <;> simp [bump, lookupNat, alookup, h]
  | cons e rest ih =>
    obtain ⟨k0, v⟩ := e
    by_cases hk : k = k0
    · subst hk
      by_cases ha : a = k <;> simp [bump, lookupNat, alookup, ha]
    · by_cases ha : a = k0
      · subst ha
        have hak : ¬ a = k := fun h => hk h.symm
        simp [bump, hk, lookupNat, alookup, hak]
      · simpa [bump, hk, lookupNat, alookup, ha] using ih

theorem lookupNat_addTo {α : Type} [DecidableEq α] (m : List (α × Nat)) (k a : α) (w : Nat) :
    lookupNat (addTo m k w) a = lookupNat m a + if a = k then w else 0 := by
  induction m with
  | nil =>
    by_cases h : a = k <;> simp [addTo, lookupNat, alookup, h]
  | cons e rest ih =>
    obtain ⟨k0, v⟩ := e
    by_cases hk : k = k0
    · subst hk
      by_cases ha : a = k <;> simp [addTo, lookupNat, alookup, ha, Nat.add_comm]
    · by_cases ha : a = k0
      · subst ha
        have hak : ¬ a = k := fun h => hk h.symm
        simp [addTo, hk, lookupNat, alookup, hak]
      · simpa [addTo, hk, lookupNat, alookup, ha] using ih

theorem alookup_fsMin {α : Type} [DecidableEq α] (m : List (α × Int)) (k a : α) (ts : Int) :
    alookup (fsMin m k ts) a =
      if a = k then some (omin (alookup m a) ts) else alookup m a := by
  induction m with
  | nil =>
    by_cases h : a = k <;> simp [fsMin, alookup, h, omin]
  | cons e rest ih =>
    obtain ⟨k0, v⟩ := e
    by_cases hk : k = k0
    · subst hk
      by_cases ha : a = k
      · subst ha
        by_cases hlt : ts < v
        · simp [fsMin, hlt, alookup, omin, min_eq_right (le_of_lt hlt)]
        · simp [fsMin, hlt, alookup, omin, min_eq_left (not_lt.mp hlt)]
      · by_cases hlt : ts < v <;> simp [fsMin, hlt, alookup, ha]
    · by_cases ha : a = k0
      · subst ha
        have hak : ¬ a = k := fun h => hk h.symm
        simp [fsMin, hk, alookup, hak]
      · simpa [fsMin, hk, alookup, ha] using ih

theorem keys_bump_subset {α : Type} [DecidableEq α] (m : List (α × Nat)) (k : α) :
    ∀ a ∈ (bump m k).map Prod.fst, a ∈ m.map Prod.fst ∨ a = k := by
  induction m with
  | nil => simp [bump]
  | cons e rest ih =>
    obtain ⟨k0, v⟩ := e
    by_cases hk : k = k0
    · subst hk
      intro a ha
      simpa using Or.inl (by simpa [bump] using ha)
    · intro a ha
      simp only [bump, if_neg hk, List.map_cons, List.mem_cons] at ha
      rcases ha with h | h
      · exact Or.inl (by simp [h])
      · rcases ih a h with h' | h'
        · exact Or.inl (by simp [List.mem_cons]; right; simpa using h')
        · exact Or.inr h'

theorem keys_addTo_mem {α : Type} [DecidableEq α] (m : List (α × Nat)) (k : α) (w : Nat) :
    ∀ a ∈ (addTo m k w).map Prod.fst, a ∈ m.map Prod.fst ∨ a = k := by
  induction m with
  | nil => simp [addTo]
  | cons e rest ih =>
    obtain ⟨k0, v⟩ := e
    by_cases hk : k = k0
    · subst hk
      intro a ha
      exact Or.inl (by simpa [addTo] using ha)
    · intro a ha
      simp only [addTo, if_neg hk, List.map_cons, List.mem_cons] at ha
      rcases ha with h | h
      · exact Or.inl (by simp [h])
      · rcases ih a h with h' | h'
        · exact Or.inl (by simp only [List.map_cons, List.mem_cons]; exact Or.inr h')
        · exact Or.inr h'

theorem keys_addTo_nodup {α : Type} [DecidableEq α] (m : List (α × Nat)) (k : α) (w : Nat)
    (h : (m.map Prod.fst).Nodup) : ((addTo m k w).map Prod.fst).Nodup := by
  induction m with
  | nil => simp [addTo]
  | cons e rest ih =>
    obtain ⟨k0, v⟩ := e
    simp only [List.map_cons, List.nodup_cons] at h
    by_cases hk : k = k0
    · subst hk
      simpa [addTo, List.nodup_cons] using h
    · simp only [addTo, if_neg hk, List.map_cons, List.nodup_cons]
      refine ⟨?_, ih h.2⟩
      intro hmem
      rcases keys_addTo_mem rest k w k0 hmem with h' | h'
      · exact h.1 h'
      · exact hk h'.symm

theorem alookup_eq_of_mem {α β : Type} [DecidableEq α] {m : List (α × β)} {k : α} {v : β}
    (hmem : (k, v) ∈ m) (hnd : (m.map Prod.fst).Nodup) : alookup m k = some v := by
  induction m with
  | nil => simp at hmem
  | cons e rest ih =>
    obtain ⟨k0, v0⟩ := e
    simp only [List.map_cons, List.nodup_cons] at hnd
    rcases List.mem_cons.mp hmem with h | h
    · cases h
      simp [alookup]
    · have hk : ¬ k = k0 := by
        intro hkk
        subst hkk
        exact hnd.1 (List.mem_map_of_mem Prod.fst h)
      simp [alookup, hk, ih h hnd.2]

/-! ## Lemmas: `upPairs` and sorted unique tag lists -/

theorem mem_of_mem_upPairs {α : Type} {l : List α} {p : α × α}
    (h : p ∈ upPairs l) : p.1 ∈ l ∧ p.2 ∈ l := by
  induction l with
  | nil => simp [upPairs] at h
  | cons x xs ih =>
    simp only [upPairs, List.mem_append, List.mem_map] at h
    rcases h with ⟨y, hy, hp⟩ | h
    · subst hp
      exact ⟨by simp, by simp [hy]⟩
    · obtain ⟨h1, h2⟩ := ih h
      exact ⟨by simp [h1], by simp [h2]⟩

theorem mem_upPairs_iff {α : Type} [LinearOrder α] {l : List α}
    (hl : l.Pairwise (· < ·)) {p : α × α} :
    p ∈ upPairs l ↔ p.1 ∈ l ∧ p.2 ∈ l ∧ p.1 < p.2 := by
  induction l with
  | nil => simp [upPairs]
  | cons x xs ih =>
    have hx : ∀ y ∈ xs, x < y := fun y hy => List.rel_of_pairwise_cons hl hy
    have hxs : xs.Pairwise (· < ·) := hl.of_cons
    constructor
    · intro h
      simp only [upPairs, List.mem_append, List.mem_map] at h
      rcases h with ⟨y, hy, hp⟩ | h
      · subst hp
        exact ⟨by simp, by simp [hy], hx y hy⟩
      · obtain ⟨h1, h2, h3⟩ := (ih hxs).mp h
        exact ⟨by simp [h1], by simp [h2], h3⟩
    · rintro ⟨h1, h2, h3⟩
      simp only [upPairs, List.mem_append, List.mem_map]
      rcases List.mem_cons.mp h1 with e1 | m1
      · have h2' : p.2 ∈ xs := by
          rcases List.mem_cons.mp h2 with e2 | m2
          · exact absurd (e2 ▸ e1 ▸ h3) (lt_irrefl _)
          · exact m2
        exact Or.inl ⟨p.2, h2', by rw [← e1]⟩
      · have h2' : p.2 ∈ xs := by
          rcases List.mem_cons.mp h2 with e2 | m2
          · exact absurd (h3.trans (e2 ▸ hx p.1 m1)) (lt_irrefl _)
          · exact m2
        exact Or.inr ((ih hxs).mpr ⟨m1, h2', h3⟩)

theorem lt_of_mem_upPairs {α : Type} [LinearOrder α] {l : List α}
    (hl : l.Pairwise (· < ·)) {p : α × α} (h : p ∈ upPairs l) : p.1 < p.2 :=
  ((mem_upPairs_iff hl).mp h).2.2

theorem nodup_upPairs {α : Type} [LinearOrder α] {l : List α}
    (hl : l.Pairwise (· < ·)) : (upPairs l).Nodup := by
  induction l with
  | nil => simp [upPairs]
  | cons x xs ih =>
    have hx : ∀ y ∈ xs, x < y := fun y hy => List.rel_of_pairwise_cons hl hy
    have hxs : xs.Pairwise (· < ·) := hl.of_cons
    have hnd : xs.Nodup := hxs.imp (fun h => ne_of_lt h)
    refine List.Nodup.append ?_ (ih hxs) ?_
    · exact hnd.map (fun a b h => by simpa using congrArg Prod.snd h)
    · intro q hq1 hq2
      obtain ⟨y, hy, hqy⟩ := List.mem_map.mp hq1
      have : q.1 ∈ xs := (mem_of_mem_upPairs hq2).1
      rw [← hqy] at this
      exact absurd (hx x this) (lt_irrefl x)

theorem length_upPairs {α : Type} (l : List α) :
    (upPairs l).length = Nat.choose l.length 2 := by
  induction l with
  | nil => simp [upPairs]
  | cons x xs ih =>
    simp only [upPairs, List.length_append, List.length_map, ih, List.length_cons]
    rw [Nat.choose_succ_succ, Nat.choose_one_right]

theorem sortedUniq_sorted (l : List String) : List.Sorted (· ≤ ·) (sortedUniq l) :=
  List.sorted_insertionSort (· ≤ ·) _

theorem sortedUniq_nodup (l : List String) : (sortedUniq l).Nodup :=
  (List.perm_insertionSort (· ≤ ·) _).symm.nodup (List.nodup_dedup _)

theorem sortedUniq_pairwise_lt (l : List String) : (sortedUniq l).Pairwise (· < ·) :=
  ((sortedUniq_sorted l).and (sortedUniq_nodup l)).imp
    (fun h => lt_of_le_of_ne h.1 h.2)

theorem mem_sortedUniq {l : List String} {a : String} :
    a ∈ sortedUniq l ↔ a ∈ l ∧ a ≠ "" := by
  rw [sortedUniq]
  rw [(List.perm_insertionSort (· ≤ ·) _).mem_iff]
  simp only [List.mem_dedup, List.mem_filter]
  simp

theorem sortedUniq_dedup (l : List String) : sortedUniq l.dedup = sortedUniq l := by
  apply List.eq_of_perm_of_sorted (r := (· ≤ ·)) ?_ (sortedUniq_sorted _) (sortedUniq_sorted _)
  rw [List.perm_ext_iff_of_nodup (sortedUniq_nodup _) (sortedUniq_nodup _)]
  intro a
  simp [mem_sortedUniq]

theorem cooccurrencePairs_dedup (l : List String) :
    cooccurrencePairs l.dedup = cooccurrencePairs l := by
  rw [cooccurrencePairs, cooccurrencePairs, sortedUniq_dedup]

theorem mem_cooccurrencePairs {l : List String} {p : String × String} :
    p ∈ cooccurrencePairs l ↔
      (p.1 ∈ l ∧ p.1 ≠ "") ∧ (p.2 ∈ l ∧ p.2 ≠ "") ∧ p.1 < p.2 := by
  rw [cooccurrencePairs, mem_upPairs_iff (sortedUniq_pairwise_lt l)]
  simp [mem_sortedUniq, and_assoc]

theorem lt_of_mem_cooccurrencePairs {l : List String} {p : String × String}
    (h : p ∈ cooccurrencePairs l) : p.1 < p.2 :=
  lt_of_mem_upPairs (sortedUniq_pairwise_lt l) h

theorem nodup_cooccurrencePairs (l : List String) : (cooccurrencePairs l).Nodup :=
  nodup_upPairs (sortedUniq_pairwise_lt l)

theorem cooccurrencePairs_nil : cooccurrencePairs [] = [] := rfl

/-! ## Lemmas: the `add` accumulator -/

theorem orderedPair_eq {p : String × String} (h : p.1 < p.2) :
    orderedPair p.1 p.2 = p := by
  rw [orderedPair, if_pos (le_of_lt h)]

theorem counts_foldl_bump {prs : List (String × String)}
    (hnd : prs.Nodup) (q : String × String) :
    ∀ c : List ((String × String) × Nat),
      lookupNat (prs.foldl (fun c p => bump c p) c) q =
        lookupNat c q + (if q ∈ prs then 1 else 0) := by
  induction prs with
  | nil => intro c; simp
  | cons p rest ih =>
    intro c
    simp only [List.foldl_cons]
    rw [ih (List.Nodup.of_cons hnd), lookupNat_bump]
    by_cases hq : q = p
    · subst hq
      have : q ∉ rest := (List.nodup_cons.mp hnd).1
      simp [this]
    · simp [hq, List.mem_cons]

theorem efs_foldl_fsMin {prs : List (String × String)}
    (hnd : prs.Nodup) (v : Int) (q : String × String) :
    ∀ e : List ((String × String) × Int),
      alookup (prs.foldl (fun e p => fsMin e p v) e) q =
        if q ∈ prs then some (omin (alookup e q) v) else alookup e q := by
  induction prs with
  | nil => intro e; simp
  | cons p rest ih =>
    intro e
    simp only [List.foldl_cons]
    rw [ih (List.Nodup.of_cons hnd), alookup_fsMin]
    by_cases hq : q = p
    · subst hq
      have : q ∉ rest := (List.nodup_cons.mp hnd).1
      simp [this]
    · simp [hq, List.mem_cons]

theorem nfs_foldl_fsMin {uniq : List String}
    (hnd : uniq.Nodup) (v : Int) (t : String) :
    ∀ m : List (String × Int),
      alookup (uniq.foldl (fun m t' => fsMin m t' v) m) t =
        if t ∈ uniq then some (omin (alookup m t) v) else alookup m t := by
  induction uniq with
  | nil => intro m; simp
  | cons x rest ih =>
    intro m
    simp only [List.foldl_cons]
    rw [ih (List.Nodup.of_cons hnd), alookup_fsMin]
    by_cases ht : t = x
    · subst ht
      have : t ∉ rest := (List.nodup_cons.mp hnd).1
      simp [this]
    · simp [ht, List.mem_cons]

theorem add_fold_split (prs : List (String × String)) (ts : Option Int)
    (hlt : ∀ p ∈ prs, p.1 < p.2) :
    ∀ (c : List ((String × String) × Nat)) (e : List ((String × String) × Int)),
      prs.foldl
        (fun (st : List ((String × String) × Nat) × List ((String × String) × Int)) p =>
          let key := orderedPair p.1 p.2
          (bump st.1 key,
           match ts with
           | some v => fsMin st.2 key v
           | none => st.2)) (c, e) =
      (prs.foldl (fun c p => bump c p) c,
       match ts with
       | some v => prs.foldl (fun e p => fsMin e p v) e
       | none => e) := by
  induction prs with
  | nil => intro c e; cases ts <;> simp
  | cons p rest ih =>
    intro c e
    have hp : orderedPair p.1 p.2 = p := orderedPair_eq (hlt p (by simp))
    have ih' := ih (fun p hp => hlt p (by simp [hp]))
    cases ts with
    | none => simpa [hp] using ih' (bump c p) e
    | some v => simpa [hp] using ih' (bump c p) (fsMin e p v)

theorem counts_add (b : CooccurrenceBuilder) (tags : List String) (ts : Option Int)
    (q : String × String) :
    lookupNat (b.add tags ts).counts q =
      lookupNat b.counts q + (if q ∈ cooccurrencePairs tags then 1 else 0) := by
  by_cases h : tags = []
  · subst h
    simp [CooccurrenceBuilder.add, cooccurrencePairs_nil]
  · rw [CooccurrenceBuilder.add, if_neg h]
    simp only
    rw [add_fold_split _ _ (fun p hp => lt_of_mem_cooccurrencePairs hp)]
    simp only
    rw [counts_foldl_bump (nodup_cooccurrencePairs _), cooccurrencePairs_dedup]

theorem nfs_add (b : CooccurrenceBuilder) (tags : List String) (ts : Option Int)
    (t : String) :
    alookup (b.add tags ts).node_first_seen t =
      ofold (alookup b.node_first_seen t) (if t ∈ tags then ts else none) := by
  by_cases h : tags = []
  · subst h
    simp [CooccurrenceBuilder.add, ofold_none]
  · rw [CooccurrenceBuilder.add, if_neg h]
    cases ts with
    | none =>
      simp [ite_self, ofold_none]
    | some v =>
      simp only
      rw [nfs_foldl_fsMin (List.nodup_dedup tags)]
      by_cases ht : t ∈ tags
      · rw [if_pos (List.mem_dedup.mpr ht), if_pos ht, ofold_some]
      · rw [if_neg (fun hc => ht (List.mem_dedup.mp hc)), if_neg ht, ofold_none]

theorem efs_add (b : CooccurrenceBuilder) (tags : List String) (ts : Option Int)
    (q : String × String) :
    alookup (b.add tags ts).edge_first_seen q =
      ofold (alookup b.edge_first_seen q) (if q ∈ cooccurrencePairs tags then ts else none) := by
  by_cases h : tags = []
  · subst h
    simp [CooccurrenceBuilder.add, cooccurrencePairs_nil, ofold_none]
  · rw [CooccurrenceBuilder.add, if_neg h]
    simp only
    rw [add_fold_split _ ts (fun p hp => lt_of_mem_cooccurrencePairs hp)]
    cases ts with
    | none =>
      simp [ite_self, ofold_none]
    | some v =>
      simp only
      rw [efs_foldl_fsMin (nodup_cooccurrencePairs _), cooccurrencePairs_dedup]
      by_cases hq : q ∈ cooccurrencePairs tags
      · rw [if_pos hq, if_pos hq, ofold_some]
      · rw [if_neg hq, if_neg hq, ofold_none]

/-! ## Lemmas: closed forms of the accumulated state -/

theorem counts_applyAdds (obs : List Obs) (q : String × String) :
    ∀ b : CooccurrenceBuilder,
      lookupNat (applyAdds b obs).counts q = lookupNat b.counts q + pairHits obs q := by
  induction obs with
  | nil => intro b; simp [applyAdds, pairHits]
  | cons o rest ih =>
    intro b
    have : applyAdds b (o :: rest) = applyAdds (b.add o.tags o.timestamp_ms) rest := rfl
    rw [this, ih, counts_add]
    simp only [pairHits, List.countP_cons]
    by_cases hq : q ∈ cooccurrencePairs o.tags <;> simp [hq] <;> omega

theorem nfs_applyAdds (obs : List Obs) (t : String) :
    ∀ b : CooccurrenceBuilder,
      alookup (applyAdds b obs).node_first_seen t =
        (obs.map (fun o => nodeTouch o t)).foldl ofold (alookup b.node_first_seen t) := by
  induction obs with
  | nil => intro b; simp [applyAdds]
  | cons o rest ih =>
    intro b
    have : applyAdds b (o :: rest) = applyAdds (b.add o.tags o.timestamp_ms) rest := rfl
    rw [this, ih, List.map_cons, List.foldl_cons, nfs_add, nodeTouch]

theorem efs_applyAdds (obs : List Obs) (q : String × String) :
    ∀ b : CooccurrenceBuilder,
      alookup (applyAdds b obs).edge_first_seen q =
        (obs.map (fun o => edgeTouch o q)).foldl ofold (alookup b.edge_first_seen q) := by
  induction obs with
  | nil => intro b; simp [applyAdds]
  | cons o rest ih =>
    intro b
    have : applyAdds b (o :: rest) = applyAdds (b.add o.tags o.timestamp_ms) rest := rfl
    rw [this, ih, List.map_cons, List.foldl_cons, efs_add, edgeTouch]

theorem counts_state (mc mn me : Nat) (obs : List Obs) (q : String × String) :
    lookupNat (applyAdds (mkBuilder mc mn me) obs).counts q = pairHits obs q := by
  rw [counts_applyAdds]
  simp [mkBuilder, lookupNat, alookup]

theorem nfs_state (mc mn me : Nat) (obs : List Obs) (t : String) :
    alookup (applyAdds (mkBuilder mc mn me) obs).node_first_seen t =
      obsMin (obs.map (fun o => nodeTouch o t)) := by
  rw [nfs_applyAdds]
  simp [mkBuilder, alookup, obsMin]

theorem efs_state (mc mn me : Nat) (obs : List Obs) (q : String × String) :
    alookup (applyAdds (mkBuilder mc mn me) obs).edge_first_seen q =
      obsMin (obs.map (fun o => edgeTouch o q)) := by
  rw [efs_applyAdds]
  simp [mkBuilder, alookup, obsMin]

/-! ## Lemmas: permutation invariance of the accumulated state -/

theorem ofold_right_comm (a x y : Option Int) :
    ofold (ofold a x) y = ofold (ofold a y) x := by
  cases a <;> cases x <;> cases y <;> simp [ofold, min_comm, min_left_comm, min_assoc]

theorem foldl_ofold_perm {l l' : List (Option Int)} (h : l.Perm l') :
    ∀ a, l.foldl ofold a = l'.foldl ofold a := by
  induction h with
  | nil => intro a; rfl
  | cons x _ ih => intro a; simp [List.foldl_cons, ih]
  | swap x y l => intro a; simp [List.foldl_cons, ofold_right_comm]
  | trans _ _ ih1 ih2 => intro a; rw [ih1, ih2]

theorem obsMin_perm {l l' : List (Option Int)} (h : l.Perm l') : obsMin l = obsMin l' :=
  foldl_ofold_perm h none

/-! ## Lemmas: the pair-key invariant of `_counts` -/

theorem counts_keys_lt (mc mn me : Nat) (obs : List Obs) :
    ∀ q ∈ (applyAdds (mkBuilder mc mn me) obs).counts, q.1.1 < q.1.2 := by
  suffices h : ∀ (b : CooccurrenceBuilder),
      (∀ q ∈ b.counts, q.1.1 < q.1.2) → ∀ q ∈ (applyAdds b obs).counts, q.1.1 < q.1.2 by
    exact h (mkBuilder mc mn me) (by simp [mkBuilder])
  induction obs with
  | nil => intro b hb; exact hb
  | cons o rest ih =>
    intro b hb
    have : applyAdds b (o :: rest) = applyAdds (b.add o.tags o.timestamp_ms) rest := rfl
    rw [this]
    refine ih _ ?_
    intro q hq
    -- keys of the post-`add` counts are old keys or co-occurrence pairs
    by_cases h : o.tags = []
    · rw [CooccurrenceBuilder.add, if_pos h] at hq
      exact hb q hq
    · rw [CooccurrenceBuilder.add, if_neg h] at hq
      simp only at hq
      rw [add_fold_split _ o.timestamp_ms
        (fun p hp => lt_of_mem_cooccurrencePairs hp)] at hq
      simp only at hq
      revert hq
      have hgen : ∀ (prs : List (String × String)) (c : List ((String × String) × Nat)),
          (∀ q ∈ c, q.1.1 < q.1.2) → (∀ p ∈ prs, p.1 < p.2) →
          ∀ q ∈ prs.foldl (fun c p => bump c p) c, q.1.1 < q.1.2 := by
        intro prs
        induction prs with
        | nil => intro c hc _; exact hc
        | cons p ps ihp =>
          intro c hc hp
          simp only [List.foldl_cons]
          refine ihp _ ?_ (fun p' hp' => hp p' (by simp [hp']))
          intro q hq
          -- membership in `bump c p` comes from `c` or is the pair `p` itself
          have hmem : q ∈ c ∨ q.1 = p := by
            clear hc ihp
            induction c with
            | nil =>
              simp only [bump, List.mem_singleton] at hq
              exact Or.inr (by rw [hq])
            | cons e cs ihc =>
              obtain ⟨k0, v⟩ := e
              by_cases hk : p = k0
              · subst hk
                rcases List.mem_cons.mp (by simpa [bump] using hq) with h1 | h1
                · exact Or.inr (by rw [h1])
                · exact Or.inl (by simp [h1])
              · rw [bump, if_neg hk] at hq
                rcases List.mem_cons.mp hq with h1 | h1
                · exact Or.inl (by simp [h1])
                · rcases ihc h1 with h2 | h2
                  · exact Or.inl (by simp [h2])
                  · exact Or.inr h2
          rcases hmem with h1 | h1
          · exact hc q h1
          · rw [h1]; exact hp p (by simp)
      intro hq
      exact hgen _ _ hb (fun p hp => lt_of_mem_cooccurrencePairs hp) q hq

/-! ## Lemmas: the `build` finalizer pipeline -/

theorem applyAdds_config (obs : List Obs) :
    ∀ b : CooccurrenceBuilder,
      (applyAdds b obs).min_cooccurrence = b.min_cooccurrence ∧
      (applyAdds b obs).max_nodes = b.max_nodes ∧
      (applyAdds b obs).max_edges = b.max_edges := by
  induction obs with
  | nil => intro b; exact ⟨rfl, rfl, rfl⟩
  | cons o rest ih =>
    intro b
    have h1 : applyAdds b (o :: rest) = applyAdds (b.add o.tags o.timestamp_ms) rest := rfl
    have h2 : (b.add o.tags o.timestamp_ms).min_cooccurrence = b.min_cooccurrence ∧
        (b.add o.tags o.timestamp_ms).max_nodes = b.max_nodes ∧
        (b.add o.tags o.timestamp_ms).max_edges = b.max_edges := by
      rw [CooccurrenceBuilder.add]
      split <;> exact ⟨rfl, rfl, rfl⟩
    rw [h1]
    obtain ⟨a1, a2, a3⟩ := ih (b.add o.tags o.timestamp_ms)
    exact ⟨a1.trans h2.1, a2.trans h2.2.1, a3.trans h2.2.2⟩

theorem mem_thresholdEdges {b : CooccurrenceBuilder} {e : String × String × Nat} :
    e ∈ thresholdEdges b ↔
      ((e.1, e.2.1), e.2.2) ∈ b.counts ∧ b.min_cooccurrence ≤ e.2.2 := by
  constructor
  · intro h
    simp only [thresholdEdges, List.mem_map, List.mem_filter] at h
    obtain ⟨x, ⟨hx, hw⟩, he⟩ := h
    obtain ⟨⟨a, c⟩, w⟩ := x
    cases he
    exact ⟨hx, by simpa using hw⟩
  · rintro ⟨hmem, hw⟩
    simp only [thresholdEdges, List.mem_map, List.mem_filter]
    exact ⟨((e.1, e.2.1), e.2.2), ⟨hmem, by simpa using hw⟩, rfl⟩

theorem mem_sortedEdges {b : CooccurrenceBuilder} {e : String × String × Nat} :
    e ∈ sortedEdges b ↔ e ∈ thresholdEdges b := by
  rw [sortedEdges, sortEdgesByWeight]
  exact (List.perm_insertionSort _ _).mem_iff

theorem mem_nodeFilteredEdges {b : CooccurrenceBuilder} {e : String × String × Nat}
    (h : e ∈ nodeFilteredEdges b) : e ∈ sortedEdges b := by
  rw [nodeFilteredEdges] at h
  split at h
  · exact (List.mem_filter.mp h).1
  · exact h

theorem mem_cappedEdges {b : CooccurrenceBuilder} {e : String × String × Nat}
    (h : e ∈ cappedEdges b) : e ∈ nodeFilteredEdges b := by
  rw [cappedEdges] at h
  split at h
  · exact List.take_subset _ _ h
  · exact h

theorem mem_cappedEdges_counts {b : CooccurrenceBuilder} {e : String × String × Nat}
    (h : e ∈ cappedEdges b) :
    ((e.1, e.2.1), e.2.2) ∈ b.counts ∧ b.min_cooccurrence ≤ e.2.2 :=
  mem_thresholdEdges.mp (mem_sortedEdges.mp (mem_nodeFilteredEdges (mem_cappedEdges h)))

theorem mem_build_links {b : CooccurrenceBuilder} {lk : Link} :
    lk ∈ b.build.links ↔ ∃ e ∈ cappedEdges b,
      lk = { source := e.1, target := e.2.1, weight := e.2.2,
             first_seen := alookup b.edge_first_seen (orderedPair e.1 e.2.1) } := by
  simp only [CooccurrenceBuilder.build, List.mem_map]
  constructor
  · rintro ⟨e, he, rfl⟩
    exact ⟨e, he, rfl⟩
  · rintro ⟨e, he, rfl⟩
    exact ⟨e, he, rfl⟩

theorem mem_endpointList {es : List (String × String × Nat)} {x : String} :
    x ∈ endpointList es ↔ ∃ e ∈ es, x = e.1 ∨ x = e.2.1 := by
  induction es with
  | nil => simp [endpointList]
  | cons e rest ih =>
    simp only [endpointList, List.mem_cons, ih]
    constructor
    · rintro (h | h | ⟨e', he', h⟩)
      · exact ⟨e, Or.inl rfl, Or.inl h⟩
      · exact ⟨e, Or.inl rfl, Or.inr h⟩
      · exact ⟨e', Or.inr he', h⟩
    · rintro ⟨e', he' | he', h⟩
      · subst he'
        rcases h with h | h
        · exact Or.inl h
        · exact Or.inr (Or.inl h)
      · exact Or.inr (Or.inr ⟨e', he', h⟩)

theorem mem_build_point_ids {b : CooccurrenceBuilder} {x : String} :
    x ∈ b.build.points.map Point.id ↔ x ∈ endpointList (cappedEdges b) := by
  simp only [CooccurrenceBuilder.build, List.map_map]
  have hcomp : (Point.id ∘ fun nid =>
      { id := nid, first_seen := alookup b.node_first_seen nid : Point }) = id := rfl
  rw [hcomp, List.map_id, (List.perm_insertionSort _ _).mem_iff, List.mem_dedup]

theorem build_point_first_seen {b : CooccurrenceBuilder} {pt : Point}
    (h : pt ∈ b.build.points) : pt.first_seen = alookup b.node_first_seen pt.id := by
  simp only [CooccurrenceBuilder.build, List.mem_map] at h
  obtain ⟨nid, _, rfl⟩ := h
  rfl

/-! ## Claim C5: the two concrete scenarios from the spec -/

/-- C5: after `add({"rock","pop","jazz"})` and `add({"rock","pop"})`,
`build()` with `min_cooccurrence=1` emits exactly the edges
`(pop,rock)=2`, `(jazz,pop)=1`, `(jazz,rock)=1`; with
`min_cooccurrence=2` it emits exactly `(pop,rock)=2` and `jazz` is absent
from the points. -/
theorem c5_concrete_scenarios :
    (applyAdds (mkBuilder 1 0 0)
        [⟨["rock", "pop", "jazz"], none⟩, ⟨["rock", "pop"], none⟩]).build.links =
      [{ source := "pop", target := "rock", weight := 2, first_seen := none },
       { source := "jazz", target := "pop", weight := 1, first_seen := none },
       { source := "jazz", target := "rock", weight := 1, first_seen := none }] ∧
    (applyAdds (mkBuilder 2 0 0)
        [⟨["rock", "pop", "jazz"], none⟩, ⟨["rock", "pop"], none⟩]).build.links =
      [{ source := "pop", target := "rock", weight := 2, first_seen := none }] ∧
    (applyAdds (mkBuilder 2 0 0)
        [⟨["rock", "pop", "jazz"], none⟩, ⟨["rock", "pop"], none⟩]).build.points.map
        Point.id = ["pop", "rock"] := by
  refine ⟨?_, ?_, ?_⟩ <;> decide

/-! ## Claim C9: the empty graph is a legal finalization -/

/-- C9: finalizing an accumulation state in which no pair reached the
threshold (in particular a fresh builder with no `add` calls) returns
exactly `{points: [], links: []}`; `build` is total, so this never
raises. -/
theorem c9_empty_finalize (mc mn me : Nat) (obs : List Obs)
    (h : ∀ e ∈ (applyAdds (mkBuilder mc mn me) obs).counts, e.2 < mc) :
    (applyAdds (mkBuilder mc mn me) obs).build = { points := [], links := [] } := by
  set b := applyAdds (mkBuilder mc mn me) obs with hb
  have hmc : b.min_cooccurrence = mc := (applyAdds_config obs (mkBuilder mc mn me)).1
  have hthresh : thresholdEdges b = [] := by
    rw [thresholdEdges]
    have : b.counts.filter (fun e => b.min_cooccurrence ≤ e.2) = [] := by
      rw [List.filter_eq_nil_iff]
      intro e he
      simp only [decide_eq_true_eq, not_le, hmc]
      exact h e he
    rw [this, List.map_nil]
  have hsorted : sortedEdges b = [] := by
    rw [sortedEdges, hthresh, sortEdgesByWeight]
    rfl
  have hnf : nodeFilteredEdges b = [] := by
    rw [nodeFilteredEdges, hsorted]
    split <;> rfl
  have hcap : cappedEdges b = [] := by
    rw [cappedEdges, hnf]
    split <;> simp
  rw [CooccurrenceBuilder.build]
  simp only [hcap]
  rfl

/-- Witness for C9: a fresh builder finalizes to the empty graph. -/
theorem c9_empty_finalize_witness :
    (applyAdds (mkBuilder 2 0 0) []).build = { points := [], links := [] } :=
  c9_empty_finalize 2 0 0 [] (by decide)

/-! ## Lemmas: album graph output assembly -/

theorem mem_endpointNats {t : PairTable} {x : Nat} :
    x ∈ endpointNats t ↔ ∃ e ∈ t, x = e.1.1 ∨ x = e.1.2 := by
  induction t with
  | nil => simp [endpointNats]
  | cons e rest ih =>
    simp only [endpointNats, List.mem_cons, ih]
    constructor
    · rintro (h | h | ⟨e', he', h⟩)
      · exact ⟨e, Or.inl rfl, Or.inl h⟩
      · exact ⟨e, Or.inl rfl, Or.inr h⟩
      · exact ⟨e', Or.inr he', h⟩
    · rintro ⟨e', he' | he', h⟩
      · subst he'
        rcases h with h | h
        · exact Or.inl h
        · exact Or.inr (Or.inl h)
      · exact Or.inr (Or.inr ⟨e', he', h⟩)

theorem mem_albumPoints_ids {intToStr : List String} {t : PairTable} {x : String} :
    x ∈ (albumPoints intToStr t).map APoint.id ↔
      ∃ i ∈ endpointNats t, x = intToStr.getD i "" := by
  simp only [albumPoints, List.map_map, List.mem_map, Function.comp]
  constructor
  · rintro ⟨i, hi, rfl⟩
    exact ⟨i, List.mem_dedup.mp ((List.perm_insertionSort _ _).mem_iff.mp hi), rfl⟩
  · rintro ⟨i, hi, rfl⟩
    exact ⟨i, (List.perm_insertionSort _ _).mem_iff.mpr (List.mem_dedup.mpr hi), rfl⟩

theorem mem_albumLinks {intToStr : List String} {unw : Bool} {t : PairTable} {lk : ALink} :
    lk ∈ albumLinks intToStr unw t ↔ ∃ e ∈ t,
      lk = { source := intToStr.getD e.1.1 "", target := intToStr.getD e.1.2 "",
             weight := if unw then none else some e.2 } := by
  simp only [albumLinks, List.mem_map]
  constructor
  · rintro ⟨e, he, rfl⟩
    exact ⟨e, he, rfl⟩
  · rintro ⟨e, he, rfl⟩
    exact ⟨e, he, rfl⟩

theorem album_nodes_eq_endpoints (intToStr : List String) (unw : Bool) (t : PairTable)
    (x : String) :
    x ∈ (albumPoints intToStr t).map APoint.id ↔
      ∃ lk ∈ albumLinks intToStr unw t, x = lk.source ∨ x = lk.target := by
  rw [mem_albumPoints_ids]
  constructor
  · rintro ⟨i, hi, rfl⟩
    obtain ⟨e, he, hor⟩ := mem_endpointNats.mp hi
    refine ⟨{ source := intToStr.getD e.1.1 "", target := intToStr.getD e.1.2 "",
              weight := if unw then none else some e.2 }, mem_albumLinks.mpr ⟨e, he, rfl⟩, ?_⟩
    rcases hor with h | h
    · exact Or.inl (by rw [h])
    · exact Or.inr (by rw [h])
  · rintro ⟨lk, hlk, hor⟩
    obtain ⟨e, he, rfl⟩ := mem_albumLinks.mp hlk
    rcases hor with h | h
    · exact ⟨e.1.1, mem_endpointNats.mpr ⟨e, he, Or.inl rfl⟩, h⟩
    · exact ⟨e.1.2, mem_endpointNats.mpr ⟨e, he, Or.inr rfl⟩, h⟩

/-! ## Claim C4: node set equals edge endpoint set -/

/-- C4: in every emitted graph of both builders, the set of node ids
equals exactly the set of edge endpoints: every point id is an endpoint
of some emitted link and every link endpoint is a point id (no isolated
nodes, even for ids seen during accumulation). -/
theorem c4_nodes_are_exactly_endpoints :
    (∀ (b : CooccurrenceBuilder) (x : String),
      x ∈ b.build.points.map Point.id ↔
        ∃ lk ∈ b.build.links, x = lk.source ∨ x = lk.target) ∧
    (∀ (postings : List (List Nat)) (intToStr : List String)
        (mw me mtd : Nat) (sample unw : Bool) (mew cap : Nat)
        (sampler : List Nat → Nat → List Nat) (x : String),
      x ∈ (buildAlbumGraphCore postings intToStr mw me mtd sample unw mew
            cap sampler).points.map APoint.id ↔
        ∃ lk ∈ (buildAlbumGraphCore postings intToStr mw me mtd sample unw mew
            cap sampler).links, x = lk.source ∨ x = lk.target) := by
  constructor
  · intro b x
    rw [mem_build_point_ids, mem_endpointList]
    constructor
    · rintro ⟨e, he, hor⟩
      refine ⟨{ source := e.1, target := e.2.1, weight := e.2.2,
                first_seen := alookup b.edge_first_seen (orderedPair e.1 e.2.1) },
              mem_build_links.mpr ⟨e, he, rfl⟩, hor⟩
    · rintro ⟨lk, hlk, hor⟩
      obtain ⟨e, he, rfl⟩ := mem_build_links.mp hlk
      exact ⟨e, he, hor⟩
  · intro postings intToStr mw me mtd sample unw mew cap sampler x
    exact album_nodes_eq_endpoints intToStr unw _ x

/-! ## Lemmas: packing and run-summing (`_consolidate` and the merges) -/

theorem packBase_pos : 0 < packBase := by norm_num [packBase]

theorem unpack_pack {r c : Nat} (hc : c < packBase) :
    pack r c / packBase = r ∧ pack r c % packBase = c := by
  constructor
  · rw [pack, mul_comm, Nat.mul_add_div packBase_pos, Nat.div_eq_of_lt hc, Nat.add_zero]
  · rw [pack, mul_comm, Nat.mul_add_mod, Nat.mod_eq_of_lt hc]

theorem pack_inj {r c r' c' : Nat} (hc : c < packBase) (hc' : c' < packBase)
    (h : pack r c = pack r' c') : r = r' ∧ c = c' := by
  have h1 : pack r c / packBase = r := (unpack_pack (r := r) hc).1
  have h2 : pack r c % packBase = c := (unpack_pack (r := r) hc).2
  rw [h] at h1 h2
  exact ⟨h1.symm.trans (unpack_pack (r := r') hc').1,
    h2.symm.trans (unpack_pack (r := r') hc').2⟩

theorem sumRuns_fst_mem {l : List (Nat × Nat)} :
    ∀ g ∈ sumRuns l, g.1 ∈ l.map Prod.fst := by
  induction l with
  | nil => simp [sumRuns]
  | cons e rest ih =>
    obtain ⟨k, w⟩ := e
    intro g hg
    simp only [sumRuns] at hg
    cases hsr : sumRuns rest with
    | nil =>
      rw [hsr, mergeRun] at hg
      simp only [List.mem_singleton] at hg
      simp [hg]
    | cons p t =>
      obtain ⟨k2, w2⟩ := p
      rw [hsr, mergeRun] at hg
      by_cases hk : k = k2
      · rw [if_pos hk] at hg
        rcases List.mem_cons.mp hg with h | h
        · subst hk
          rw [h]
          simp
        · have hmem : g ∈ sumRuns rest := by
            rw [hsr]; exact List.mem_cons_of_mem _ h
          simpa using Or.inr (ih g hmem)
      · rw [if_neg hk] at hg
        rcases List.mem_cons.mp hg with h | h
        · rw [h]; simp
        · have hmem : g ∈ sumRuns rest := by rw [hsr]; exact h
          simpa using Or.inr (ih g hmem)

theorem sumRuns_pos {l : List (Nat × Nat)} (hl : ∀ e ∈ l, 1 ≤ e.2) :
    ∀ g ∈ sumRuns l, 1 ≤ g.2 := by
  induction l with
  | nil => simp [sumRuns]
  | cons e rest ih =>
    obtain ⟨k, w⟩ := e
    have hw : 1 ≤ w := hl (k, w) (by simp)
    have hrest : ∀ e ∈ rest, 1 ≤ e.2 := fun e he => hl e (List.mem_cons_of_mem _ he)
    intro g hg
    simp only [sumRuns] at hg
    cases hsr : sumRuns rest with
    | nil =>
      rw [hsr, mergeRun] at hg
      simp only [List.mem_singleton] at hg
      rw [hg]
      exact hw
    | cons p t =>
      obtain ⟨k2, w2⟩ := p
      rw [hsr, mergeRun] at hg
      by_cases hk : k = k2
      · rw [if_pos hk] at hg
        rcases List.mem_cons.mp hg with h | h
        · rw [h]
          simp only
          omega
        · exact ih hrest g (by rw [hsr]; exact List.mem_cons_of_mem _ h)
      · rw [if_neg hk] at hg
        rcases List.mem_cons.mp hg with h | h
        · rw [h]; exact hw
        · exact ih hrest g (by rw [hsr]; exact h)

theorem keyWeight_nil (k : Nat) : keyWeight k [] = 0 := rfl

theorem keyWeight_cons (k : Nat) (e : Nat × Nat) (l : List (Nat × Nat)) :
    keyWeight k (e :: l) = (if e.1 = k then e.2 else 0) + keyWeight k l := by
  by_cases h : e.1 = k <;>
    simp [keyWeight, List.filter_cons, h]

theorem keyWeight_append (k : Nat) (l1 l2 : List (Nat × Nat)) :
    keyWeight k (l1 ++ l2) = keyWeight k l1 + keyWeight k l2 := by
  induction l1 with
  | nil => simp [keyWeight_nil, keyWeight]
  | cons e es ih =>
    rw [List.cons_append, keyWeight_cons, keyWeight_cons, ih]
    omega

theorem keyWeight_perm {l l' : List (Nat × Nat)} (h : l.Perm l') (k : Nat) :
    keyWeight k l = keyWeight k l' :=
  ((h.filter _).map _).sum_eq

theorem keyWeight_sumRuns (k : Nat) (l : List (Nat × Nat)) :
    keyWeight k (sumRuns l) = keyWeight k l := by
  induction l with
  | nil => rfl
  | cons e rest ih =>
    obtain ⟨kk, w⟩ := e
    simp only [sumRuns]
    cases hsr : sumRuns rest with
    | nil =>
      have h0 : keyWeight k rest = 0 := by rw [← ih, hsr, keyWeight_nil]
      rw [mergeRun, keyWeight_cons, keyWeight_cons, keyWeight_nil, h0]
    | cons p t =>
      obtain ⟨k2, w2⟩ := p
      have hr : keyWeight k rest = keyWeight k ((k2, w2) :: t) := by rw [← ih, hsr]
      by_cases hk : kk = k2
      · rw [mergeRun, if_pos hk, keyWeight_cons, keyWeight_cons, hr, keyWeight_cons]
        subst hk
        by_cases h2 : kk = k <;> simp [h2] <;> omega
      · rw [mergeRun, if_neg hk, keyWeight_cons, keyWeight_cons, keyWeight_cons, hr,
          keyWeight_cons]

theorem keyWeight_unit (k : Nat) (l : List Nat) :
    keyWeight k (l.map (fun x => (x, 1))) = l.countP (fun x => decide (x = k)) := by
  induction l with
  | nil => rfl
  | cons x xs ih =>
    rw [List.map_cons, keyWeight_cons, List.countP_cons, ih]
    by_cases h : x = k <;> simp [h] <;> omega

theorem weightOf_nil (r c : Nat) : weightOf [] r c = 0 := rfl

theorem weightOf_cons (e : (Nat × Nat) × Nat) (t : PairTable) (r c : Nat) :
    weightOf (e :: t) r c = (if e.1 = (r, c) then e.2 else 0) + weightOf t r c := by
  by_cases h : e.1 = (r, c) <;>
    simp [weightOf, List.filter_cons, h]

theorem weightOf_append (t1 t2 : PairTable) (r c : Nat) :
    weightOf (t1 ++ t2) r c = weightOf t1 r c + weightOf t2 r c := by
  induction t1 with
  | nil => simp [weightOf_nil, weightOf]
  | cons e es ih =>
    rw [List.cons_append, weightOf_cons, weightOf_cons, ih]
    omega

theorem weightOf_map_unpack {groups : List (Nat × Nat)} {r c : Nat} (hc : c < packBase) :
    weightOf (groups.map unpackEntry) r c = keyWeight (pack r c) groups := by
  induction groups with
  | nil => rfl
  | cons g gs ih =>
    rw [List.map_cons, weightOf_cons, keyWeight_cons, ih]
    congr 1
    by_cases h : g.1 = pack r c
    · have hfst : (unpackEntry g).1 = (r, c) := by
        rw [unpackEntry, h]
        exact Prod.ext (unpack_pack hc).1 (unpack_pack hc).2
      rw [if_pos hfst, if_pos h]
      rfl
    · have hfst : ¬ (unpackEntry g).1 = (r, c) := by
        intro hcon
        apply h
        have h1 : g.1 / packBase = r := congrArg Prod.fst hcon
        have h2 : g.1 % packBase = c := congrArg Prod.snd hcon
        rw [pack, ← h1, ← h2, mul_comm, Nat.div_add_mod]
      rw [if_neg hfst, if_neg h]

theorem keyWeight_map_pack {t : PairTable} (hB : ∀ e ∈ t, e.1.2 < packBase)
    {r c : Nat} (hc : c < packBase) :
    keyWeight (pack r c) (t.map (fun e => (pack e.1.1 e.1.2, e.2))) = weightOf t r c := by
  induction t with
  | nil => rfl
  | cons e es ih =>
    rw [List.map_cons, keyWeight_cons, weightOf_cons,
      ih (fun e' he' => hB e' (List.mem_cons_of_mem _ he'))]
    congr 1
    by_cases h : e.1 = (r, c)
    · rw [if_pos (by rw [h]), if_pos h]
    · rw [if_neg ?_, if_neg h]
      intro hcon
      obtain ⟨h1, h2⟩ := pack_inj (hB e (by simp)) hc hcon
      exact h (Prod.ext h1 h2)

/-! ## Lemmas: `consolidate`, the merges and the consolidation loop -/

theorem snd_lt_packBase_consolidate {pairs : List (Nat × Nat)} {mw : Nat} {pr : Bool} :
    ∀ e ∈ consolidate pairs mw pr, e.1.2 < packBase := by
  intro e he
  simp only [consolidate, List.mem_map] at he
  obtain ⟨g, _, rfl⟩ := he
  exact Nat.mod_lt _ packBase_pos

theorem snd_lt_packBase_mergeTables {acc bat : PairTable} {pr : Bool} :
    ∀ e ∈ mergeTables acc bat pr, e.1.2 < packBase := by
  intro e he
  simp only [mergeTables, List.mem_map] at he
  obtain ⟨g, _, rfl⟩ := he
  exact Nat.mod_lt _ packBase_pos

theorem weightOf_consolidate {pairs : List (Nat × Nat)} {mw : Nat} {pr : Bool}
    (hpr : (pr && decide (2 ≤ mw)) = false)
    (hB : ∀ p ∈ pairs, p.2 < packBase) {r c : Nat} (hc : c < packBase) :
    weightOf (consolidate pairs mw pr) r c = pairCount pairs r c := by
  rw [consolidate]
  simp only [hpr, Bool.false_eq_true, if_false]
  rw [weightOf_map_unpack hc, keyWeight_sumRuns, keyWeight_unit,
    (List.perm_insertionSort _ _).countP_eq, List.countP_map, pairCount]
  apply List.countP_congr
  intro p hp
  simp only [Function.comp, decide_eq_true_eq]
  constructor
  · intro h
    obtain ⟨h1, h2⟩ := pack_inj (hB p hp) hc h
    exact Prod.ext h1 h2
  · intro h
    rw [show p.1 = r from congrArg Prod.fst h, show p.2 = c from congrArg Prod.snd h]

theorem weightOf_mergeTables {acc bat : PairTable}
    (hB : ∀ e ∈ acc ++ bat, e.1.2 < packBase) {r c : Nat} (hc : c < packBase) :
    weightOf (mergeTables acc bat false) r c = weightOf acc r c + weightOf bat r c := by
  rw [mergeTables]
  simp only [Bool.false_eq_true, if_false]
  rw [weightOf_map_unpack hc, keyWeight_sumRuns,
    keyWeight_perm (List.perm_insertionSort _ _),
    keyWeight_map_pack hB hc, weightOf_append]

theorem weightOf_incStep {mw : Nat} {pr : Bool} {acc : PairTable}
    {batch : List (Nat × Nat)}
    (hpr : (pr && decide (2 ≤ mw)) = false)
    (hacc : ∀ e ∈ acc, e.1.2 < packBase)
    (hB : ∀ p ∈ batch, p.2 < packBase) {r c : Nat} (hc : c < packBase) :
    weightOf (incStep mw pr acc batch) r c = weightOf acc r c + pairCount batch r c := by
  rw [incStep]
  by_cases ha : acc = []
  · rw [if_pos ha, ha, weightOf_consolidate hpr hB hc, weightOf_nil]
    omega
  · rw [if_neg ha]
    simp only
    by_cases hb : consolidate batch mw pr = []
    · rw [if_pos hb]
      have h0 : weightOf (consolidate batch mw pr) r c = pairCount batch r c :=
        weightOf_consolidate hpr hB hc
      rw [hb, weightOf_nil] at h0
      omega
    · rw [if_neg hb, hpr,
        weightOf_mergeTables
          (by
            intro e he
            rcases List.mem_append.mp he with h | h
            · exact hacc e h
            · exact snd_lt_packBase_consolidate e h) hc,
        weightOf_consolidate hpr hB hc]

theorem incStep_snd_lt {mw : Nat} {pr : Bool} {acc : PairTable}
    {batch : List (Nat × Nat)} (hacc : ∀ e ∈ acc, e.1.2 < packBase) :
    ∀ e ∈ incStep mw pr acc batch, e.1.2 < packBase := by
  intro e he
  rw [incStep] at he
  by_cases ha : acc = []
  · rw [if_pos ha] at he
    exact snd_lt_packBase_consolidate e he
  · rw [if_neg ha] at he
    simp only at he
    by_cases hb : consolidate batch mw pr = []
    · rw [if_pos hb] at he
      exact hacc e he
    · rw [if_neg hb] at he
      exact snd_lt_packBase_mergeTables e he

theorem weightOf_foldl_incStep {mw : Nat} {pr : Bool}
    (hpr : (pr && decide (2 ≤ mw)) = false) {r c : Nat} (hc : c < packBase) :
    ∀ (batches : List (List (Nat × Nat))) (acc : PairTable),
      (∀ e ∈ acc, e.1.2 < packBase) →
      (∀ p ∈ batches.flatten, p.2 < packBase) →
      weightOf (batches.foldl (incStep mw pr) acc) r c =
        weightOf acc r c + pairCount batches.flatten r c := by
  intro batches
  induction batches with
  | nil => intro acc _ _; simp [pairCount]
  | cons b rest ih =>
    intro acc hacc hB
    have hBb : ∀ p ∈ b, p.2 < packBase := fun p hp =>
      hB p (by rw [List.flatten_cons]; exact List.mem_append.mpr (Or.inl hp))
    have hBrest : ∀ p ∈ rest.flatten, p.2 < packBase := fun p hp =>
      hB p (by rw [List.flatten_cons]; exact List.mem_append.mpr (Or.inr hp))
    rw [List.foldl_cons, ih _ (incStep_snd_lt hacc) hBrest,
      weightOf_incStep hpr hacc hBb hc, List.flatten_cons]
    have : pairCount (b ++ rest.flatten) r c = pairCount b r c + pairCount rest.flatten r c := by
      rw [pairCount, pairCount, pairCount, List.countP_append]
    omega

/-- Exactness of unpruned incremental consolidation: for every batching
of the pair stream, the incrementally consolidated table assigns every
pair its exact occurrence count. -/
theorem weightOf_incrementalConsolidate {mw : Nat} {pr : Bool}
    (hpr : (pr && decide (2 ≤ mw)) = false)
    {batches : List (List (Nat × Nat))}
    (hB : ∀ p ∈ batches.flatten, p.2 < packBase) {r c : Nat} (hc : c < packBase) :
    weightOf (incrementalConsolidate batches mw pr) r c = pairCount batches.flatten r c := by
  rw [incrementalConsolidate, weightOf_foldl_incStep hpr hc batches [] (by simp) hB,
    weightOf_nil]
  omega

/-! ## Claim C1: batch consolidation -/

/-- C1 counterexample: the pair `(0,1)` observed once in each of two
batches, with `min_weight = 2` and pruning active (the weighted path of
`build_album_graph`), is discarded by incremental consolidation — each
batch prunes it as a singleton — although the one-shot count over the
same multiset gives it weight 2, which reaches the threshold.  So the
intermediate singleton pruning is not conservative and batch
consolidation is not exact. -/
theorem c1_pruned_consolidation_counterexample :
    incrementalConsolidate [[(0, 1)], [(0, 1)]] 2 true = [] ∧
    consolidate [(0, 1), (0, 1)] 2 true = [((0, 1), 2)] ∧
    weightOf (incrementalConsolidate [[(0, 1)], [(0, 1)]] 2 true) 0 1 = 0 ∧
    pairCount [(0, 1), (0, 1)] 0 1 = 2 := by
  refine ⟨?_, ?_, ?_, ?_⟩ <;> decide

/-- C1 (amended): batch consolidation is exact whenever singleton pruning
is inactive — `prune = false` (unweighted mode) or `min_weight < 2`: for
every multiset of pair observations and every way of splitting it into
batches, incremental consolidation gives every pair exactly its total
occurrence count, the same weight table as a one-shot `_consolidate` of
the whole stream.  (With pruning active the counterexample shows a pair
split across batches as per-batch singletons is discarded even though its
total weight reaches the threshold.) -/
theorem c1_unpruned_batch_consolidation_exact
    (batches : List (List (Nat × Nat))) (mw : Nat) (pr : Bool)
    (hpr : (pr && decide (2 ≤ mw)) = false)
    (hB : ∀ p ∈ batches.flatten, p.2 < packBase) (r c : Nat) (hc : c < packBase) :
    weightOf (incrementalConsolidate batches mw pr) r c =
      pairCount batches.flatten r c ∧
    weightOf (incrementalConsolidate batches mw pr) r c =
      weightOf (consolidate batches.flatten mw false) r c := by
  have h1 := weightOf_incrementalConsolidate (r := r) hpr hB hc
  have h2 := @weightOf_consolidate batches.flatten mw false (by simp) hB r c hc
  exact ⟨h1, h1.trans h2.symm⟩

/-- Witness for the amended C1: a concrete two-batch split, consolidated
without pruning, reproduces the exact count 2 for the pair `(0,1)`. -/
theorem c1_unpruned_batch_consolidation_exact_witness :
    weightOf (incrementalConsolidate [[(0, 1)], [(0, 1), (2, 3)]] 5 false) 0 1 =
      pairCount [(0, 1), (0, 1), (2, 3)] 0 1 ∧
    weightOf (incrementalConsolidate [[(0, 1)], [(0, 1), (2, 3)]] 5 false) 0 1 =
      weightOf (consolidate [(0, 1), (0, 1), (2, 3)] 5 false) 0 1 :=
  c1_unpruned_batch_consolidation_exact [[(0, 1)], [(0, 1), (2, 3)]] 5 false
    (by decide) (by decide) 0 1 (by decide)

/-! ## Claim C7: per-tag degree control -/

theorem pass2Step_skip {cap mw mtd : Nat} {pr : Bool}
    {sampler : List Nat → Nat → List Nat} {st : Pass2State} {t : List Nat}
    (h : mtd < t.length) :
    pass2Step cap mw mtd false pr sampler st t = st := by
  rw [pass2Step, if_pos h]
  simp

/-- C7: a tag whose posting list exceeds `max_tag_degree` contributes
nothing under the skip policy — pass 2 with and without that tag produces
the same table — while under the sample policy the tag's posting list is
replaced by the sampler's choice of `max_tag_degree` ids, so it feeds
exactly `C(max_tag_degree, 2)` pair observations into the batch
(`random.sample` always returns the requested number of distinct
elements). -/
theorem c7_high_degree_tag_control
    (cap mw mtd : Nat) (pr : Bool) (sampler : List Nat → Nat → List Nat)
    (pre post : List (List Nat)) (t : List Nat) (h : mtd < t.length) :
    (pass2 cap mw mtd false pr sampler (pre ++ t :: post) =
      pass2 cap mw mtd false pr sampler (pre ++ post)) ∧
    (∀ st : Pass2State,
      pass2Step cap mw mtd true pr sampler st t =
        pass2Emit cap mw pr st (sampler t mtd)) ∧
    ((sampler t mtd).length = mtd →
      (pairsFromSorted (List.insertionSort (· ≤ ·) (sampler t mtd))).length =
        Nat.choose mtd 2) := by
  refine ⟨?_, ?_, ?_⟩
  · rw [pass2, pass2, List.foldl_append, List.foldl_append, List.foldl_cons,
      pass2Step_skip h]
  · intro st
    rw [pass2Step, if_pos h]
    simp
  · intro hlen
    rw [pairsFromSorted, length_upPairs, List.length_insertionSort, hlen]

/-- Witness for C7 at a concrete high-degree tag with the take-`k`
sampler. -/
theorem c7_high_degree_tag_control_witness :
    (pass2 BATCH_CAP 2 2 false true (fun l k => l.take k) [[0, 1], [0, 1, 2], [3, 4]] =
      pass2 BATCH_CAP 2 2 false true (fun l k => l.take k) [[0, 1], [3, 4]]) ∧
    (pass2Step BATCH_CAP 2 2 true true (fun l k => l.take k) ⟨[], 0, []⟩ [0, 1, 2] =
      pass2Emit BATCH_CAP 2 true ⟨[], 0, []⟩ ((fun (l : List Nat) (k : Nat) => l.take k) [0, 1, 2] 2)) ∧
    (pairsFromSorted (List.insertionSort (· ≤ ·)
        ((fun (l : List Nat) (k : Nat) => l.take k) [0, 1, 2] 2))).length = Nat.choose 2 2 := by
  have h := c7_high_degree_tag_control BATCH_CAP 2 2 true (fun l k => l.take k)
    [[0, 1]] [[3, 4]] [0, 1, 2] (by decide)
  exact ⟨h.1, h.2.1 ⟨[], 0, []⟩, h.2.2 (by decide)⟩

/-! ## Lemmas: structural invariants of the album pipeline -/

theorem pairwise_lt_insertionSort {α : Type} [LinearOrder α] (l : List α)
    (h : l.Nodup) : (List.insertionSort (· ≤ ·) l).Pairwise (· < ·) := by
  have hs : (List.insertionSort (· ≤ ·) l).Pairwise (· ≤ ·) :=
    List.sorted_insertionSort (· ≤ ·) l
  have hn : (List.insertionSort (· ≤ ·) l).Nodup :=
    (List.perm_insertionSort (· ≤ ·) l).symm.nodup h
  exact (hs.and hn).imp (fun hab => lt_of_le_of_ne hab.1 hab.2)

theorem pairsFromSorted_ok {N : Nat} {arr : List Nat} (hnd : arr.Nodup)
    (hb : ∀ i ∈ arr, i < N) :
    ∀ p ∈ pairsFromSorted (List.insertionSort (· ≤ ·) arr), p.1 < p.2 ∧ p.2 < N := by
  intro p hp
  have hso := pairwise_lt_insertionSort arr hnd
  have hlt := lt_of_mem_upPairs hso hp
  have hmem := (mem_of_mem_upPairs hp).2
  have : p.2 ∈ arr := (List.perm_insertionSort (· ≤ ·) arr).mem_iff.mp hmem
  exact ⟨hlt, hb _ this⟩

theorem consolidate_ok {N : Nat} {pairs : List (Nat × Nat)} {mw : Nat} {pr : Bool}
    (hN : N ≤ packBase) (hp : ∀ p ∈ pairs, p.1 < p.2 ∧ p.2 < N) :
    TableOK N (consolidate pairs mw pr) := by
  intro e he
  simp only [consolidate, List.mem_map] at he
  obtain ⟨g, hg, rfl⟩ := he
  have hg' : g ∈ sumRuns ((List.insertionSort (· ≤ ·)
      (pairs.map (fun p => pack p.1 p.2))).map (fun k => (k, 1))) := by
    by_cases hcase : (pr && decide (2 ≤ mw)) = true
    · rw [hcase] at hg
      simp only [if_true] at hg
      exact List.mem_of_mem_filter hg
    · rw [Bool.not_eq_true] at hcase
      rw [hcase] at hg
      simpa using hg
  have hkey := sumRuns_fst_mem g hg'
  have hpos : 1 ≤ g.2 := sumRuns_pos (fun x hx => by
    obtain ⟨k, hk, rfl⟩ := List.mem_map.mp hx
    exact le_refl 1) g hg'
  simp only [List.map_map, List.mem_map, Function.comp] at hkey
  obtain ⟨k, hk, hkg⟩ := hkey
  have hk' : k ∈ pairs.map (fun p => pack p.1 p.2) :=
    (List.perm_insertionSort _ _).mem_iff.mp hk
  simp only [List.mem_map] at hk'
  obtain ⟨p, hpmem, rfl⟩ := hk'
  obtain ⟨hlt, hbn⟩ := hp p hpmem
  have hcB : p.2 < packBase := lt_of_lt_of_le hbn hN
  have h1 : g.1 = pack p.1 p.2 := by rw [← hkg]
  rw [unpackEntry, h1]
  simp only
  rw [(unpack_pack (r := p.1) hcB).1, (unpack_pack (r := p.1) hcB).2]
  exact ⟨hlt, hbn, hpos⟩

theorem mergeTables_ok {N : Nat} {acc bat : PairTable} {pr : Bool}
    (hN : N ≤ packBase) (ha : TableOK N acc) (hb : TableOK N bat) :
    TableOK N (mergeTables acc bat pr) := by
  intro e he
  simp only [mergeTables, List.mem_map] at he
  obtain ⟨g, hg, rfl⟩ := he
  have hg' : g ∈ sumRuns (List.insertionSort (fun x y => x.1 ≤ y.1)
      ((acc ++ bat).map (fun e => (pack e.1.1 e.1.2, e.2)))) := by
    by_cases hcase : pr = true
    · rw [hcase] at hg
      simp only [if_true] at hg
      exact List.mem_of_mem_filter hg
    · rw [Bool.not_eq_true] at hcase
      rw [hcase] at hg
      simpa using hg
  have hkey := sumRuns_fst_mem g hg'
  have hwmem : ∀ x ∈ List.insertionSort (fun x y => x.1 ≤ y.1)
      ((acc ++ bat).map (fun e => (pack e.1.1 e.1.2, e.2))), 1 ≤ x.2 := by
    intro x hx
    have hx' := (List.perm_insertionSort _ _).mem_iff.mp hx
    simp only [List.mem_map] at hx'
    obtain ⟨e', he', rfl⟩ := hx'
    rcases List.mem_append.mp he' with h | h
    · exact (ha e' h).2.2
    · exact (hb e' h).2.2
  have hpos : 1 ≤ g.2 := sumRuns_pos hwmem g hg'
  have hkey' : g.1 ∈ (acc ++ bat).map (fun e => pack e.1.1 e.1.2) := by
    have hperm := (List.perm_insertionSort (fun x y => x.1 ≤ y.1)
        ((acc ++ bat).map (fun e => (pack e.1.1 e.1.2, e.2)))).map Prod.fst
    have hmem := hperm.mem_iff.mp hkey
    simpa [List.map_map, Function.comp] using hmem
  obtain ⟨e', he', hge⟩ := List.mem_map.mp hkey'
  have hok : e'.1.1 < e'.1.2 ∧ e'.1.2 < N ∧ 1 ≤ e'.2 := by
    rcases List.mem_append.mp he' with h | h
    · exact ha e' h
    · exact hb e' h
  have hcB : e'.1.2 < packBase := lt_of_lt_of_le hok.2.1 hN
  rw [unpackEntry, ← hge]
  simp only
  rw [(unpack_pack (r := e'.1.1) hcB).1, (unpack_pack (r := e'.1.1) hcB).2]
  exact ⟨hok.1, hok.2.1, hpos⟩

theorem incStep_ok {N : Nat} {mw : Nat} {pr : Bool} {acc : PairTable}
    {batch : List (Nat × Nat)} (hN : N ≤ packBase) (ha : TableOK N acc)
    (hb : ∀ p ∈ batch, p.1 < p.2 ∧ p.2 < N) :
    TableOK N (incStep mw pr acc batch) := by
  rw [incStep]
  by_cases hacc : acc = []
  · rw [if_pos hacc]
    exact consolidate_ok hN hb
  · rw [if_neg hacc]
    simp only
    by_cases hcb : consolidate batch mw pr = []
    · rw [if_pos hcb]
      exact ha
    · rw [if_neg hcb]
      exact mergeTables_ok hN ha (consolidate_ok hN hb)

theorem pass2Emit_ok {N : Nat} {cap mw : Nat} {pr : Bool} {st : Pass2State}
    {recInts : List Nat} (hN : N ≤ packBase) (hst : Pass2OK N st)
    (hnd : recInts.Nodup) (hb : ∀ i ∈ recInts, i < N) :
    Pass2OK N (pass2Emit cap mw pr st recInts) := by
  rw [pass2Emit]
  have hprs := pairsFromSorted_ok (N := N) hnd hb
  by_cases hp : pairsFromSorted (List.insertionSort (· ≤ ·) recInts) = []
  · rw [if_pos hp]
    exact hst
  · rw [if_neg hp]
    simp only
    by_cases hcap : cap ≤ st.batchSize +
        (pairsFromSorted (List.insertionSort (· ≤ ·) recInts)).length
    · rw [if_pos hcap]
      refine ⟨by simp, ?_⟩
      refine incStep_ok hN hst.2 ?_
      intro p hp'
      rcases List.mem_append.mp hp' with h | h
      · exact hst.1 p h
      · exact hprs p h
    · rw [if_neg hcap]
      refine ⟨?_, hst.2⟩
      intro p hp'
      rcases List.mem_append.mp hp' with h | h
      · exact hst.1 p h
      · exact hprs p h

theorem pass2Step_ok {N : Nat} {cap mw mtd : Nat} {sample pr : Bool}
    {sampler : List Nat → Nat → List Nat} {st : Pass2State} {recInts : List Nat}
    (hN : N ≤ packBase) (hst : Pass2OK N st)
    (hnd : recInts.Nodup) (hb : ∀ i ∈ recInts, i < N)
    (hsamp : ∀ l k, l.Nodup → (∀ i ∈ l, i < N) →
      (sampler l k).Nodup ∧ ∀ i ∈ sampler l k, i < N) :
    Pass2OK N (pass2Step cap mw mtd sample pr sampler st recInts) := by
  rw [pass2Step]
  by_cases hdeg : mtd < recInts.length
  · rw [if_pos hdeg]
    by_cases hs : sample = true
    · rw [hs]
      simp only [if_true]
      obtain ⟨h1, h2⟩ := hsamp recInts mtd hnd hb
      exact pass2Emit_ok hN hst h1 h2
    · rw [Bool.not_eq_true] at hs
      rw [hs]
      simpa using hst
  · rw [if_neg hdeg]
    exact pass2Emit_ok hN hst hnd hb

theorem pass2Finish_ok {N : Nat} {mw : Nat} {pr : Bool} {st : Pass2State}
    (hN : N ≤ packBase) (hst : Pass2OK N st) :
    TableOK N (pass2Finish mw pr st) := by
  rw [pass2Finish]
  by_cases hbs : 0 < st.batchSize
  · rw [if_pos hbs]
    by_cases hacc : st.acc = []
    · rw [if_pos hacc]
      exact consolidate_ok hN hst.1
    · rw [if_neg hacc]
      simp only
      by_cases hcb : consolidate st.batch mw pr = []
      · rw [if_pos hcb]
        exact hst.2
      · rw [if_neg hcb]
        exact mergeTables_ok hN hst.2 (consolidate_ok hN hst.1)
  · rw [if_neg hbs]
    exact hst.2

theorem pass2_ok {N : Nat} {cap mw mtd : Nat} {sample pr : Bool}
    {sampler : List Nat → Nat → List Nat} {postings : List (List Nat)}
    (hN : N ≤ packBase)
    (hpost : ∀ l ∈ postings, l.Nodup ∧ ∀ i ∈ l, i < N)
    (hsamp : ∀ l k, l.Nodup → (∀ i ∈ l, i < N) →
      (sampler l k).Nodup ∧ ∀ i ∈ sampler l k, i < N) :
    TableOK N (pass2 cap mw mtd sample pr sampler postings) := by
  rw [pass2]
  refine pass2Finish_ok hN ?_
  have hfold : ∀ (ls : List (List Nat)) (st : Pass2State),
      (∀ l ∈ ls, l.Nodup ∧ ∀ i ∈ l, i < N) → Pass2OK N st →
      Pass2OK N (ls.foldl (pass2Step cap mw mtd sample pr sampler) st) := by
    intro ls
    induction ls with
    | nil => intro st _ hst; exact hst
    | cons l rest ih =>
      intro st hls hst
      rw [List.foldl_cons]
      refine ih _ (fun l' hl' => hls l' (List.mem_cons_of_mem _ hl')) ?_
      obtain ⟨h1, h2⟩ := hls l (by simp)
      exact pass2Step_ok hN hst h1 h2 hsamp
  refine hfold postings _ hpost ⟨?_, ?_⟩
  · intro p hp
    simp at hp
  · intro e he
    simp at he

theorem pass3_ok {N : Nat} {mw me mew : Nat} {unw : Bool} {t : PairTable}
    (ht : TableOK N t) : TableOK N (pass3 mw me mew unw t) := by
  have h1 : TableOK N (pass3Filter mw unw t) := by
    rw [pass3Filter]
    split
    · exact fun e he => ht e (List.mem_of_mem_filter he)
    · exact ht
  have h2 : TableOK N (pass3Clip mew unw (pass3Filter mw unw t)) := by
    rw [pass3Clip]
    split
    · rename_i hcond
      intro e he
      obtain ⟨e', he', rfl⟩ := List.mem_map.mp he
      obtain ⟨ha, hb, hc⟩ := h1 e' he'
      have hmew : 0 < mew := by
        rcases Bool.and_eq_true_iff.mp hcond with ⟨hl, _⟩
        exact Nat.pos_of_ne_zero (by
          intro h0
          rw [h0] at hl
          simp at hl)
      exact ⟨ha, hb, le_min hc hmew⟩
    · exact h1
  have h3 : TableOK N (pass3Unit unw (pass3Clip mew unw (pass3Filter mw unw t))) := by
    rw [pass3Unit]
    split
    · intro e he
      obtain ⟨e', he', rfl⟩ := List.mem_map.mp he
      obtain ⟨ha, hb, _⟩ := h2 e' he'
      exact ⟨ha, hb, le_refl 1⟩
    · exact h2
  have h4 : TableOK N (pass3Sort (pass3Unit unw
      (pass3Clip mew unw (pass3Filter mw unw t)))) := by
    intro e he
    exact h3 e ((List.perm_insertionSort _ _).mem_iff.mp he)
  rw [pass3]
  split
  · exact fun e he => h4 e (List.take_subset _ _ he)
  · exact h4

theorem pass3_weight {mw me mew : Nat} {t : PairTable}
    (hw : ∀ e ∈ t, 1 ≤ e.2) (hmew : mew = 0 ∨ mw ≤ mew) :
    ∀ e ∈ pass3 mw me mew false t, mw ≤ e.2 := by
  have h1 : ∀ e ∈ pass3Filter mw false t, mw ≤ e.2 := by
    rw [pass3Filter]
    by_cases hc : 1 < mw
    · rw [if_pos (by simp [hc])]
      intro e he
      exact of_decide_eq_true (List.mem_filter.mp he).2
    · rw [if_neg (by simp [hc])]
      intro e he
      have := hw e he
      omega
  have h2 : ∀ e ∈ pass3Clip mew false (pass3Filter mw false t), mw ≤ e.2 := by
    rw [pass3Clip]
    split
    · rename_i hcond
      intro e he
      obtain ⟨e', he', rfl⟩ := List.mem_map.mp he
      have hge := h1 e' he'
      rcases hmew with h0 | hle
      · rcases Bool.and_eq_true_iff.mp hcond with ⟨hl, _⟩
        rw [h0] at hl
        simp at hl
      · simp only
        exact le_min hge hle
    · exact h1
  intro e he
  rw [pass3] at he
  have h3 : ∀ e ∈ pass3Sort (pass3Unit false
      (pass3Clip mew false (pass3Filter mw false t))), mw ≤ e.2 := by
    intro e' he'
    have := (List.perm_insertionSort _ _).mem_iff.mp he'
    rw [pass3Unit] at this
    simp only [Bool.false_eq_true, if_false] at this
    exact h2 e' this
  split at he
  · exact h3 e (List.take_subset _ _ he)
  · exact h3 e he

/-! ## Claims C3 and C10: canonical edges, thresholds, no self-loops -/

theorem getD_strict_mono {l : List String} (hso : l.Pairwise (· < ·)) {i j : Nat}
    (hij : i < j) (hj : j < l.length) : l.getD i "" < l.getD j "" := by
  have hi : i < l.length := lt_trans hij hj
  rw [List.getD_eq_getElem l _ hi, List.getD_eq_getElem l _ hj]
  have := List.pairwise_iff_get.mp hso ⟨i, hi⟩ ⟨j, hj⟩ hij
  simpa using this

theorem coocc_links_canonical (mc mn me : Nat) (obs : List Obs) :
    ∀ lk ∈ (applyAdds (mkBuilder mc mn me) obs).build.links,
      lk.source < lk.target ∧ mc ≤ lk.weight := by
  intro lk hlk
  obtain ⟨e, he, rfl⟩ := mem_build_links.mp hlk
  obtain ⟨hcnt, hw⟩ := mem_cappedEdges_counts he
  have hlt := counts_keys_lt mc mn me obs _ hcnt
  have hmc := (applyAdds_config obs (mkBuilder mc mn me)).1
  rw [hmc] at hw
  exact ⟨hlt, hw⟩

theorem albumCore_table_ok (postings : List (List Nat)) (intToStr : List String)
    (mw me mtd : Nat) (sample unw : Bool) (mew cap : Nat)
    (sampler : List Nat → Nat → List Nat)
    (hN : intToStr.length ≤ packBase)
    (hpost : ∀ l ∈ postings, l.Nodup ∧ ∀ i ∈ l, i < intToStr.length)
    (hsamp : ∀ l k, l.Nodup → (∀ i ∈ l, i < intToStr.length) →
      (sampler l k).Nodup ∧ ∀ i ∈ sampler l k, i < intToStr.length) :
    TableOK intToStr.length
      (pass3 (if unw then 1 else mw) me mew unw
        (pass2 cap (if unw then 1 else mw) mtd sample (!unw) sampler postings)) :=
  pass3_ok (pass2_ok hN hpost hsamp)

theorem albumCore_links_lt (postings : List (List Nat)) (intToStr : List String)
    (mw me mtd : Nat) (sample unw : Bool) (mew cap : Nat)
    (sampler : List Nat → Nat → List Nat)
    (hso : intToStr.Pairwise (· < ·))
    (hN : intToStr.length ≤ packBase)
    (hpost : ∀ l ∈ postings, l.Nodup ∧ ∀ i ∈ l, i < intToStr.length)
    (hsamp : ∀ l k, l.Nodup → (∀ i ∈ l, i < intToStr.length) →
      (sampler l k).Nodup ∧ ∀ i ∈ sampler l k, i < intToStr.length) :
    ∀ lk ∈ (buildAlbumGraphCore postings intToStr mw me mtd sample unw mew
        cap sampler).links, lk.source < lk.target := by
  intro lk hlk
  have ht := albumCore_table_ok postings intToStr mw me mtd sample unw mew cap
    sampler hN hpost hsamp
  simp only [buildAlbumGraphCore] at hlk
  obtain ⟨e, he, rfl⟩ := mem_albumLinks.mp hlk
  obtain ⟨hlt, hbn, _⟩ := ht e he
  exact getD_strict_mono hso hlt hbn

theorem albumCore_links_weight (postings : List (List Nat)) (intToStr : List String)
    (mw me mtd : Nat) (sample : Bool) (mew cap : Nat)
    (sampler : List Nat → Nat → List Nat)
    (hN : intToStr.length ≤ packBase)
    (hpost : ∀ l ∈ postings, l.Nodup ∧ ∀ i ∈ l, i < intToStr.length)
    (hsamp : ∀ l k, l.Nodup → (∀ i ∈ l, i < intToStr.length) →
      (sampler l k).Nodup ∧ ∀ i ∈ sampler l k, i < intToStr.length)
    (hmew : mew = 0 ∨ mw ≤ mew) :
    ∀ lk ∈ (buildAlbumGraphCore postings intToStr mw me mtd sample false mew
        cap sampler).links, ∃ w, lk.weight = some w ∧ mw ≤ w := by
  intro lk hlk
  simp only [buildAlbumGraphCore] at hlk
  obtain ⟨e, he, rfl⟩ := mem_albumLinks.mp hlk
  simp only [Bool.false_eq_true, if_false] at he ⊢
  refine ⟨e.2, rfl, ?_⟩
  have hw : ∀ e' ∈ pass2 cap mw mtd sample (!false) sampler postings, 1 ≤ e'.2 :=
    fun e' he' => (pass2_ok hN hpost hsamp e' he').2.2
  exact pass3_weight hw hmew e he

/-- C3 (amended): every emitted link of the tag co-occurrence builder
satisfies `source <= target` (in fact strictly) and
`weight >= min_cooccurrence`, for every input and configuration.  In the
album similarity builder every emitted link satisfies `source < target`
(for both weighted and unweighted modes), and the weight key is present
and `>= min_weight` whenever unweighted mode is off and `max_edge_weight`
is 0 or at least `min_weight`.  (When `0 < max_edge_weight < min_weight`
the clip writes weights below threshold — see the counterexample — and
unweighted links carry no weight key at all.) -/
theorem c3_canonical_edges_and_threshold :
    (∀ (mc mn me : Nat) (obs : List Obs),
      ∀ lk ∈ (applyAdds (mkBuilder mc mn me) obs).build.links,
        lk.source ≤ lk.target ∧ mc ≤ lk.weight) ∧
    (∀ (postings : List (List Nat)) (intToStr : List String)
        (mw me mtd : Nat) (sample unw : Bool) (mew cap : Nat)
        (sampler : List Nat → Nat → List Nat),
      intToStr.Pairwise (· < ·) →
      intToStr.length ≤ packBase →
      (∀ l ∈ postings, l.Nodup ∧ ∀ i ∈ l, i < intToStr.length) →
      (∀ l k, l.Nodup → (∀ i ∈ l, i < intToStr.length) →
        (sampler l k).Nodup ∧ ∀ i ∈ sampler l k, i < intToStr.length) →
      ∀ lk ∈ (buildAlbumGraphCore postings intToStr mw me mtd sample unw mew
          cap sampler).links, lk.source ≤ lk.target) ∧
    (∀ (postings : List (List Nat)) (intToStr : List String)
        (mw me mtd : Nat) (sample : Bool) (mew cap : Nat)
        (sampler : List Nat → Nat → List Nat),
      intToStr.length ≤ packBase →
      (∀ l ∈ postings, l.Nodup ∧ ∀ i ∈ l, i < intToStr.length) →
      (∀ l k, l.Nodup → (∀ i ∈ l, i < intToStr.length) →
        (sampler l k).Nodup ∧ ∀ i ∈ sampler l k, i < intToStr.length) →
      (mew = 0 ∨ mw ≤ mew) →
      ∀ lk ∈ (buildAlbumGraphCore postings intToStr mw me mtd sample false mew
          cap sampler).links, ∃ w, lk.weight = some w ∧ mw ≤ w) := by
  refine ⟨?_, ?_, ?_⟩
  · intro mc mn me obs lk hlk
    obtain ⟨h1, h2⟩ := coocc_links_canonical mc mn me obs lk hlk
    exact ⟨le_of_lt h1, h2⟩
  · intro postings intToStr mw me mtd sample unw mew cap sampler hso hN hpost hsamp lk hlk
    exact le_of_lt (albumCore_links_lt postings intToStr mw me mtd sample unw mew
      cap sampler hso hN hpost hsamp lk hlk)
  · intro postings intToStr mw me mtd sample mew cap sampler hN hpost hsamp hmew lk hlk
    exact albumCore_links_weight postings intToStr mw me mtd sample mew cap
      sampler hN hpost hsamp hmew lk hlk

/-- C3 counterexample: with `min_weight = 3` and `max_edge_weight = 2`
(both legal configuration values), the album builder emits an edge whose
weight 2 is below `min_weight` — the clip runs after the threshold filter
— so "every emitted edge carries weight >= min_cooccurrence in every
configuration" is false as stated. -/
theorem c3_clip_below_threshold_counterexample :
    (buildAlbumGraphCore [[0, 1], [0, 1], [0, 1]] ["a", "b"] 3 0 200 true false 2
        BATCH_CAP (fun l k => l.take k)).links =
      [{ source := "a", target := "b", weight := some 2 }] ∧ (2 : Nat) < 3 := by
  refine ⟨?_, by decide⟩
  decide

theorem takeSampler_ok (N : Nat) :
    ∀ (l : List Nat) (k : Nat), l.Nodup → (∀ i ∈ l, i < N) →
      (l.take k).Nodup ∧ ∀ i ∈ l.take k, i < N :=
  fun l k hnd hb =>
    ⟨hnd.sublist (List.take_sublist k l), fun i hi => hb i (List.take_subset _ _ hi)⟩

/-- Witness for C3 at concrete runs of both builders. -/
theorem c3_canonical_edges_and_threshold_witness :
    (("pop" : String) ≤ "rock" ∧ (1 : Nat) ≤ 1) ∧
    (("a" : String) ≤ "b") ∧
    (∃ w, (some 2 : Option Nat) = some w ∧ (2 : Nat) ≤ w) := by
  obtain ⟨h1, h2, h3⟩ := c3_canonical_edges_and_threshold
  refine ⟨?_, ?_, ?_⟩
  · exact h1 1 0 0 [⟨["rock", "pop"], none⟩]
      { source := "pop", target := "rock", weight := 1, first_seen := none } (by decide)
  · exact h2 [[0, 1]] ["a", "b"] 1 0 200 true false 0 BATCH_CAP (fun l k => l.take k)
      (by decide) (by decide) (by decide) (takeSampler_ok 2)
      { source := "a", target := "b", weight := some 1 } (by decide)
  · exact h3 [[0, 1], [0, 1]] ["a", "b"] 2 0 200 true 0 BATCH_CAP (fun l k => l.take k)
      (by decide) (by decide) (takeSampler_ok 2) (Or.inl rfl)
      { source := "a", target := "b", weight := some 2 } (by decide)

/-- C10: in every reachable accumulator state each `_counts` key is a
strictly ascending pair (`a < b`, never `a = b`), and no emitted link of
either builder is a self-loop. -/
theorem c10_no_self_loops :
    (∀ (mc mn me : Nat) (obs : List Obs),
      ∀ q ∈ (applyAdds (mkBuilder mc mn me) obs).counts, q.1.1 < q.1.2) ∧
    (∀ (mc mn me : Nat) (obs : List Obs),
      ∀ lk ∈ (applyAdds (mkBuilder mc mn me) obs).build.links,
        lk.source ≠ lk.target) ∧
    (∀ (postings : List (List Nat)) (intToStr : List String)
        (mw me mtd : Nat) (sample unw : Bool) (mew cap : Nat)
        (sampler : List Nat → Nat → List Nat),
      intToStr.Pairwise (· < ·) →
      intToStr.length ≤ packBase →
      (∀ l ∈ postings, l.Nodup ∧ ∀ i ∈ l, i < intToStr.length) →
      (∀ l k, l.Nodup → (∀ i ∈ l, i < intToStr.length) →
        (sampler l k).Nodup ∧ ∀ i ∈ sampler l k, i < intToStr.length) →
      ∀ lk ∈ (buildAlbumGraphCore postings intToStr mw me mtd sample unw mew
          cap sampler).links, lk.source ≠ lk.target) := by
  refine ⟨?_, ?_, ?_⟩
  · exact counts_keys_lt
  · intro mc mn me obs lk hlk
    exact ne_of_lt (coocc_links_canonical mc mn me obs lk hlk).1
  · intro postings intToStr mw me mtd sample unw mew cap sampler hso hN hpost hsamp lk hlk
    exact ne_of_lt (albumCore_links_lt postings intToStr mw me mtd sample unw mew
      cap sampler hso hN hpost hsamp lk hlk)

/-- Witness for C10 at concrete runs. -/
theorem c10_no_self_loops_witness :
    (("pop" : String) < "rock") ∧
    (("pop" : String) ≠ "rock") ∧
    (("a" : String) ≠ "b") := by
  obtain ⟨h1, h2, h3⟩ := c10_no_self_loops
  refine ⟨?_, ?_, ?_⟩
  · exact h1 1 0 0 [⟨["rock", "pop"], none⟩] (("pop", "rock"), 1) (by decide)
  · exact h2 1 0 0 [⟨["rock", "pop"], none⟩]
      { source := "pop", target := "rock", weight := 1, first_seen := none } (by decide)
  · exact h3 [[0, 1]] ["a", "b"] 1 0 200 true false 0 BATCH_CAP (fun l k => l.take k)
      (by decide) (by decide) (by decide) (takeSampler_ok 2)
      { source := "a", target := "b", weight := some 1 } (by decide)

/-! ## Claim C8: `first_seen` is the minimum touch timestamp -/

theorem ofold_eq_none {a x : Option Int} : ofold a x = none ↔ a = none ∧ x = none := by
  cases a <;> cases x <;> simp [ofold]

theorem foldl_ofold_eq_none (l : List (Option Int)) :
    ∀ a, (l.foldl ofold a = none ↔ a = none ∧ ∀ x ∈ l, x = none) := by
  induction l with
  | nil => intro a; simp
  | cons x xs ih =>
    intro a
    rw [List.foldl_cons, ih, ofold_eq_none]
    constructor
    · rintro ⟨⟨h1, h2⟩, h3⟩
      exact ⟨h1, by
        intro y hy
        rcases List.mem_cons.mp hy with h | h
        · exact h ▸ h2
        · exact h3 y h⟩
    · rintro ⟨h1, h2⟩
      exact ⟨⟨h1, h2 x (by simp)⟩, fun y hy => h2 y (List.mem_cons_of_mem _ hy)⟩

theorem obsMin_eq_none_iff (l : List (Option Int)) :
    obsMin l = none ↔ ∀ x ∈ l, x = none := by
  rw [obsMin, foldl_ofold_eq_none]
  simp

/-- C8: in every emitted graph, a node's `first_seen` equals the minimum
timestamp over the observations whose tag set mentions it, and an edge's
`first_seen` equals the minimum timestamp over the observations in which
the pair co-occurs; the field is absent (`none`) exactly when no touching
observation carried a timestamp — which is what `obsMin` computes over
the stream of optional touch times. -/
theorem c8_first_seen_minimum (mc mn me : Nat) (obs : List Obs) :
    (∀ pt ∈ (applyAdds (mkBuilder mc mn me) obs).build.points,
      pt.first_seen = obsMin (obs.map (fun o => nodeTouch o pt.id))) ∧
    (∀ lk ∈ (applyAdds (mkBuilder mc mn me) obs).build.links,
      lk.first_seen = obsMin (obs.map (fun o => edgeTouch o (lk.source, lk.target)))) ∧
    (∀ l : List (Option Int), obsMin l = none ↔ ∀ x ∈ l, x = none) := by
  refine ⟨?_, ?_, obsMin_eq_none_iff⟩
  · intro pt hpt
    rw [build_point_first_seen hpt, nfs_state]
  · intro lk hlk
    obtain ⟨e, he, rfl⟩ := mem_build_links.mp hlk
    have hlt : e.1 < e.2.1 :=
      counts_keys_lt mc mn me obs _ (mem_cappedEdges_counts he).1
    have hop : orderedPair e.1 e.2.1 = (e.1, e.2.1) :=
      orderedPair_eq (p := (e.1, e.2.1)) hlt
    show alookup (applyAdds (mkBuilder mc mn me) obs).edge_first_seen
      (orderedPair e.1 e.2.1) = _
    rw [hop, efs_state]

/-- Witness for C8 on the timestamped scenario from the repository's
tests: both points and the single link carry `first_seen = 1000`. -/
theorem c8_first_seen_minimum_witness :
    (some 1000 : Option Int) =
      obsMin ([⟨["rock", "pop"], some 2000⟩, ⟨["rock", "pop"], some 1000⟩].map
        (fun o => nodeTouch o "rock")) ∧
    (some 1000 : Option Int) =
      obsMin ([⟨["rock", "pop"], some 2000⟩, ⟨["rock", "pop"], some 1000⟩].map
        (fun o => edgeTouch o ("pop", "rock"))) := by
  obtain ⟨h1, h2, h3⟩ := c8_first_seen_minimum 1 0 0
    [⟨["rock", "pop"], some 2000⟩, ⟨["rock", "pop"], some 1000⟩]
  constructor
  · exact h1 { id := "rock", first_seen := some 1000 } (by decide)
  · exact h2 (⟨"pop", "rock", 2, some 1000⟩ : Link) (by decide)

/-! ## Claim C6: order-independence of accumulation -/

/-- C6: feeding the same multiset of observations in any order yields,
for every pair, the same accumulated weight, and for every node and every
pair, the same (optional) first-seen timestamp. -/
theorem c6_order_independence (mc mn me : Nat) (obs obs' : List Obs)
    (hperm : obs.Perm obs') :
    (∀ q : String × String,
      lookupNat (applyAdds (mkBuilder mc mn me) obs).counts q =
        lookupNat (applyAdds (mkBuilder mc mn me) obs').counts q) ∧
    (∀ t : String,
      alookup (applyAdds (mkBuilder mc mn me) obs).node_first_seen t =
        alookup (applyAdds (mkBuilder mc mn me) obs').node_first_seen t) ∧
    (∀ q : String × String,
      alookup (applyAdds (mkBuilder mc mn me) obs).edge_first_seen q =
        alookup (applyAdds (mkBuilder mc mn me) obs').edge_first_seen q) := by
  refine ⟨?_, ?_, ?_⟩
  · intro q
    rw [counts_state, counts_state, pairHits, pairHits, hperm.countP_eq]
  · intro t
    rw [nfs_state, nfs_state]
    exact obsMin_perm (hperm.map _)
  · intro q
    rw [efs_state, efs_state]
    exact obsMin_perm (hperm.map _)

/-- Witness for C6: swapping two concrete observations leaves the
accumulated weight and first-seen lookups unchanged. -/
theorem c6_order_independence_witness :
    (lookupNat (applyAdds (mkBuilder 1 0 0)
        [⟨["rock", "pop"], some 2000⟩, ⟨["jazz"], some 1000⟩]).counts ("pop", "rock") =
      lookupNat (applyAdds (mkBuilder 1 0 0)
        [⟨["jazz"], some 1000⟩, ⟨["rock", "pop"], some 2000⟩]).counts ("pop", "rock")) ∧
    (alookup (applyAdds (mkBuilder 1 0 0)
        [⟨["rock", "pop"], some 2000⟩, ⟨["jazz"], some 1000⟩]).node_first_seen "jazz" =
      alookup (applyAdds (mkBuilder 1 0 0)
        [⟨["jazz"], some 1000⟩, ⟨["rock", "pop"], some 2000⟩]).node_first_seen "jazz") ∧
    (alookup (applyAdds (mkBuilder 1 0 0)
        [⟨["rock", "pop"], some 2000⟩, ⟨["jazz"], some 1000⟩]).edge_first_seen ("pop", "rock") =
      alookup (applyAdds (mkBuilder 1 0 0)
        [⟨["jazz"], some 1000⟩, ⟨["rock", "pop"], some 2000⟩]).edge_first_seen ("pop", "rock")) := by
  obtain ⟨h1, h2, h3⟩ := c6_order_independence 1 0 0
    [⟨["rock", "pop"], some 2000⟩, ⟨["jazz"], some 1000⟩]
    [⟨["jazz"], some 1000⟩, ⟨["rock", "pop"], some 2000⟩]
    (List.Perm.swap _ _ _)
  exact ⟨h1 _, h2 _, h3 _⟩

/-! ## Claim C2: node and edge capping -/

theorem strengthTable_keys_nodup (es : List (String × String × Nat)) :
    ((strengthTable es).map Prod.fst).Nodup := by
  rw [strengthTable]
  have hgen : ∀ (l : List (String × String × Nat)) (m : List (String × Nat)),
      (m.map Prod.fst).Nodup →
      ((l.foldl (fun m e => addTo (addTo m e.1 e.2.2) e.2.1 e.2.2) m).map
        Prod.fst).Nodup := by
    intro l
    induction l with
    | nil => intro m hm; exact hm
    | cons e rest ih =>
      intro m hm
      rw [List.foldl_cons]
      exact ih _ (keys_addTo_nodup _ _ _ (keys_addTo_nodup _ _ _ hm))
  exact hgen es [] (by simp)

theorem sorted_weightDesc (es : List (String × String × Nat)) :
    (sortEdgesByWeight es).Pairwise (fun x y => y.2.2 ≤ x.2.2) := by
  haveI h1 : IsTotal (String × String × Nat) (fun x y => y.2.2 ≤ x.2.2) :=
    ⟨fun a b => le_total b.2.2 a.2.2⟩
  haveI h2 : IsTrans (String × String × Nat) (fun x y => y.2.2 ≤ x.2.2) :=
    ⟨fun a b c hab hbc => le_trans hbc hab⟩
  exact List.sorted_insertionSort _ _

theorem sorted_strengthDesc (m : List (String × Nat)) :
    (List.insertionSort (fun (x y : String × Nat) => y.2 ≤ x.2) m).Pairwise
      (fun x y => y.2 ≤ x.2) := by
  haveI h1 : IsTotal (String × Nat) (fun x y => y.2 ≤ x.2) :=
    ⟨fun a b => le_total b.2 a.2⟩
  haveI h2 : IsTrans (String × Nat) (fun x y => y.2 ≤ x.2) :=
    ⟨fun a b c hab hbc => le_trans hbc hab⟩
  exact List.sorted_insertionSort _ _

theorem sorted_nodeFilteredEdges (b : CooccurrenceBuilder) :
    (nodeFilteredEdges b).Pairwise (fun x y => y.2.2 ≤ x.2.2) := by
  have hs : (sortedEdges b).Pairwise (fun x y => y.2.2 ≤ x.2.2) :=
    sorted_weightDesc (thresholdEdges b)
  rw [nodeFilteredEdges]
  split
  · exact hs.filter _
  · exact hs

theorem pairwise_take_drop {α : Type} {R : α → α → Prop} {l : List α}
    (h : l.Pairwise R) (n : Nat) :
    ∀ x ∈ l.take n, ∀ y ∈ l.drop n, R x y := by
  have h' := h
  rw [← List.take_append_drop n l] at h'
  exact (List.pairwise_append.mp h').2.2

theorem nodeCap_keep_dominates (b : CooccurrenceBuilder) (k d : String)
    (hk : k ∈ nodeCapKeep b.max_nodes (sortedEdges b))
    (hd : d ∈ (strengthTable (sortedEdges b)).map Prod.fst)
    (hdn : d ∉ nodeCapKeep b.max_nodes (sortedEdges b)) :
    lookupNat (strengthTable (sortedEdges b)) d ≤
      lookupNat (strengthTable (sortedEdges b)) k := by
  rw [nodeCapKeep] at hk hdn
  obtain ⟨kv, hkv, hkvk⟩ := List.mem_map.mp hk
  obtain ⟨dv, hdv, hdvd⟩ := List.mem_map.mp hd
  have hdvS : dv ∈ List.insertionSort (fun (x y : String × Nat) => y.2 ≤ x.2)
      (strengthTable (sortedEdges b)) :=
    (List.perm_insertionSort _ _).mem_iff.mpr hdv
  have hdvdrop : dv ∈ (List.insertionSort (fun (x y : String × Nat) => y.2 ≤ x.2)
      (strengthTable (sortedEdges b))).drop b.max_nodes := by
    have hx := hdvS
    rw [← List.take_append_drop b.max_nodes (List.insertionSort
      (fun (x y : String × Nat) => y.2 ≤ x.2) (strengthTable (sortedEdges b)))] at hx
    rcases List.mem_append.mp hx with h | h
    · exact absurd (List.mem_map.mpr ⟨dv, h, hdvd⟩) hdn
    · exact h
  have hle : dv.2 ≤ kv.2 :=
    pairwise_take_drop (sorted_strengthDesc (strengthTable (sortedEdges b)))
      b.max_nodes kv hkv dv hdvdrop
  have hndk : ((strengthTable (sortedEdges b)).map Prod.fst).Nodup :=
    strengthTable_keys_nodup (sortedEdges b)
  have hkvM : kv ∈ strengthTable (sortedEdges b) :=
    (List.perm_insertionSort _ _).mem_iff.mp (List.take_subset _ _ hkv)
  rw [← hkvk, ← hdvd, lookupNat, lookupNat,
    alookup_eq_of_mem hkvM hndk, alookup_eq_of_mem hdv hndk]
  exact hle

theorem edgeCap_keep_dominates (b : CooccurrenceBuilder)
    (e e' : String × String × Nat) (he : e ∈ cappedEdges b)
    (he' : e' ∈ nodeFilteredEdges b) (hen : e' ∉ cappedEdges b) :
    e'.2.2 ≤ e.2.2 := by
  rw [cappedEdges] at he hen
  by_cases hc : 0 < b.max_edges ∧ b.max_edges < (nodeFilteredEdges b).length
  · rw [if_pos hc] at he hen
    have hdrop : e' ∈ (nodeFilteredEdges b).drop b.max_edges := by
      have hx := he'
      rw [← List.take_append_drop b.max_edges (nodeFilteredEdges b)] at hx
      rcases List.mem_append.mp hx with h | h
      · exact absurd h hen
      · exact h
    exact pairwise_take_drop (sorted_nodeFilteredEdges b) b.max_edges e he e' hdrop
  · rw [if_neg hc] at hen
    exact absurd he' hen

/-- C2 counterexample: after `add({"b","c"})`, `add({"a","c"})` with
`min_cooccurrence=1, max_nodes=2`, three nodes survive with strengths
`a=1, b=1, c=2` — a tie between `a` and `b` with `a < b` — yet the node
cap keeps `{c, b}` and drops `a`: Python's stable sort breaks the tie by
the order nodes first gained strength, not by ascending id, so the
claimed tie-break rule is false. -/
theorem c2_tiebreak_counterexample :
    nodeCapKeep 2 (sortedEdges (applyAdds (mkBuilder 1 2 0)
      [⟨["b", "c"], none⟩, ⟨["a", "c"], none⟩])) = ["c", "b"] ∧
    (applyAdds (mkBuilder 1 2 0)
      [⟨["b", "c"], none⟩, ⟨["a", "c"], none⟩]).build.points.map Point.id =
      ["b", "c"] ∧
    lookupNat (strengthTable (sortedEdges (applyAdds (mkBuilder 1 2 0)
      [⟨["b", "c"], none⟩, ⟨["a", "c"], none⟩]))) "a" = 1 ∧
    lookupNat (strengthTable (sortedEdges (applyAdds (mkBuilder 1 2 0)
      [⟨["b", "c"], none⟩, ⟨["a", "c"], none⟩]))) "b" = 1 ∧
    (strengthTable (sortedEdges (applyAdds (mkBuilder 1 2 0)
      [⟨["b", "c"], none⟩, ⟨["a", "c"], none⟩]))).length = 3 ∧
    ("a" : String) < "b" := by
  refine ⟨?_, ?_, ?_, ?_, ?_, ?_⟩ <;> decide

/-- C2 (amended): node and edge capping select by rank — every node kept
by the node cap has strength at least that of every dropped node, and
every edge kept by the edge cap has weight at least that of every edge it
drops — but ties are broken by the stable sort's insertion order (the
order in which nodes first gained strength, respectively the `_counts`
insertion order of pairs), not by ascending node id or canonical pair
order, and the result therefore depends on the accumulated state's
insertion order, not on the counts alone. -/
theorem c2_caps_keep_top_ranked :
    (∀ (b : CooccurrenceBuilder) (k d : String),
      k ∈ nodeCapKeep b.max_nodes (sortedEdges b) →
      d ∈ (strengthTable (sortedEdges b)).map Prod.fst →
      d ∉ nodeCapKeep b.max_nodes (sortedEdges b) →
      lookupNat (strengthTable (sortedEdges b)) d ≤
        lookupNat (strengthTable (sortedEdges b)) k) ∧
    (∀ (b : CooccurrenceBuilder) (e e' : String × String × Nat),
      e ∈ cappedEdges b → e' ∈ nodeFilteredEdges b → e' ∉ cappedEdges b →
      e'.2.2 ≤ e.2.2) :=
  ⟨nodeCap_keep_dominates, edgeCap_keep_dominates⟩

/-- Witness for the amended C2 on concrete capped builds. -/
theorem c2_caps_keep_top_ranked_witness :
    lookupNat (strengthTable (sortedEdges (applyAdds (mkBuilder 1 2 0)
        [⟨["b", "c"], none⟩, ⟨["a", "c"], none⟩]))) "a" ≤
      lookupNat (strengthTable (sortedEdges (applyAdds (mkBuilder 1 2 0)
        [⟨["b", "c"], none⟩, ⟨["a", "c"], none⟩]))) "c" ∧
    (1 : Nat) ≤ 2 := by
  obtain ⟨h1, h2⟩ := c2_caps_keep_top_ranked
  constructor
  · exact h1 (applyAdds (mkBuilder 1 2 0) [⟨["b", "c"], none⟩, ⟨["a", "c"], none⟩])
      "c" "a" (by decide) (by decide) (by decide)
  · exact h2 (applyAdds (mkBuilder 1 0 1)
      [⟨["rock", "pop", "jazz"], none⟩, ⟨["rock", "pop"], none⟩])
      ("pop", "rock", 2) ("jazz", "pop", 1) (by decide) (by decide) (by decide)
